import Mathlib

/-!
Verification of the POSIX path-manipulation library (`src/path.ts`).

Shallow embedding: JavaScript strings are modelled as `List Char` (the
library never relies on UTF-16 surrogate details; every character test in
the source compares whole characters such as `'/'` and `'.'`).  Public
`String`-level wrappers are provided on top of the `List Char` core.

The source's `String.prototype.split('/')`, `Array.prototype.join('/')`
and slicing operations are embedded as the explicit recursive functions
`splitL`, `joinSegs`, `stripTrailingSlashes`, `lastComp`, `dirPart` below;
each definition carries a comment pointing at the line of the source it
translates.
-/

namespace NodePath

/-- JS `path.split('/')`: splits a character list at every `'/'`.
Mirrors JavaScript semantics: `"".split("/") = [""]`,
`"a//b".split("/") = ["a","","b"]`. -/
def splitL : List Char → List (List Char)
  | [] => [[]]
  | c :: rest =>
    match splitL rest with
    | [] => [[c]]    -- unreachable: splitL never returns []
    | s :: ss => if c = '/' then [] :: s :: ss else (c :: s) :: ss

/-- JS `parts.join('/')`: interleaves `'/'` between the segments. -/
def joinSegs : List (List Char) → List Char
  | [] => []
  | [a] => a
  | a :: b :: rest => a ++ '/' :: joinSegs (b :: rest)

/-- `path.charAt(0) === '/'` (src/path.ts, `isAbsolute`, lines 117-119). -/
def isAbsoluteL : List Char → Bool
  | '/' :: _ => true
  | _ => false

/-- One iteration of the `for (const p of parts)` loop body of
`normalizeArray` (src/path.ts lines 30-50):
empty and `"."` parts are skipped; `".."` pops a trailing non-`".."`
entry, otherwise it is pushed exactly when `allowAboveRoot` holds;
every other part is pushed. -/
def naStep (allowAboveRoot : Bool) (res : List (List Char)) (p : List Char) :
    List (List Char) :=
  if p = [] ∨ p = ['.'] then res
  else if p = ['.', '.'] then
    if res ≠ [] ∧ res.getLast? ≠ some ['.', '.'] then res.dropLast
    else if allowAboveRoot then res ++ [['.', '.']] else res
  else res ++ [p]

/-- `normalizeArray(parts, allowAboveRoot)` (src/path.ts lines 30-50):
a single left-to-right pass with accumulator `res` starting empty. -/
def normalizeArrayL (parts : List (List Char)) (allowAboveRoot : Bool) :
    List (List Char) :=
  parts.foldl (naStep allowAboveRoot) []

/-- `normalize(path)` (src/path.ts lines 99-114). -/
def normalizeL (s : List Char) : List Char :=
  let p1 := joinSegs (normalizeArrayL (splitL s) (!isAbsoluteL s))
  -- `if (!path && !absolute) path = '.'`
  let p2 := if p1 = [] ∧ isAbsoluteL s = false then ['.'] else p1
  -- `if (path && trailingSlash) path += '/'` where
  -- `trailingSlash = path.substr(-1) === '/'` on the original input
  let p3 := if p2 ≠ [] ∧ s.getLast? = some '/' then p2 ++ ['/'] else p2
  (if isAbsoluteL s = true then ['/'] else []) ++ p3

/-- The argument-concatenation loop of `join(...args)`
(src/path.ts lines 122-137): empty segments are skipped, the first
kept segment starts the accumulator, later ones are appended after `'/'`. -/
def joinConcat (args : List (List Char)) : List Char :=
  args.foldl
    (fun path seg =>
      if seg = [] then path
      else if path = [] then seg
      else path ++ '/' :: seg) []

/-- `join(...args)` on string arguments (src/path.ts lines 122-137). -/
def joinL (args : List (List Char)) : List Char :=
  normalizeL (joinConcat args)

/-- The `for (let i = args.length - 1; i >= -1 && !resolvedAbsolute; i--)`
loop of `resolve` (src/path.ts lines 67-86), processing the arguments from
the right; the list handed to this function is the reversed argument list.
`acc` is `resolvedPath`; the returned Bool is `resolvedAbsolute`.
At `i = -1` the working directory `cwd` (the `getCwd()` collaborator,
lines 60-63, modelled as an explicit parameter per spec section 9) is
prepended, after which the loop index runs out. -/
def resolveGo (cwd : List Char) (acc : List Char) :
    List (List Char) → List Char × Bool
  | [] =>
    if cwd = [] then (acc, false)
    else (cwd ++ '/' :: acc, isAbsoluteL cwd)
  | a :: rest =>
    if a = [] then resolveGo cwd acc rest
    else if isAbsoluteL a then (a ++ '/' :: acc, true)
    else resolveGo cwd (a ++ '/' :: acc) rest

/-- `resolve(...args)` (src/path.ts lines 67-95) with the working
directory supplier made an explicit first parameter.  The final
`?? '.'` in the source is dead code (string concatenation is never
nullish) and is dropped. -/
def resolveL (cwd : List Char) (args : List (List Char)) : List Char :=
  let rb := resolveGo cwd [] args.reverse
  (if rb.2 then ['/'] else []) ++
    joinSegs (normalizeArrayL (splitL rb.1) (!rb.2))

/-- The `trim` helper inside `relative` (src/path.ts lines 145-158):
drops leading and trailing empty segments (returns `[]` when every
segment is empty, matching the `start > end` case). -/
def trimL (arr : List (List Char)) : List (List Char) :=
  (((arr.dropWhile (fun x => x = [])).reverse.dropWhile
      (fun x => x = [])).reverse)

/-- The `samePartsLength` computation of `relative`
(src/path.ts lines 163-170): length of the longest common prefix. -/
def commonPrefixLen : List (List Char) → List (List Char) → Nat
  | a :: as, b :: bs => if a = b then commonPrefixLen as bs + 1 else 0
  | _, _ => 0

/-- `relative(from, to)` (src/path.ts lines 141-180), with the working
directory supplier explicit. -/
def relativeL (cwd src dst : List Char) : List Char :=
  let fromParts := trimL (splitL ((resolveL cwd [src]).drop 1))
  let toParts := trimL (splitL ((resolveL cwd [dst]).drop 1))
  let k := commonPrefixLen fromParts toParts
  joinSegs
    (List.replicate (fromParts.length - k) ['.', '.'] ++ toParts.drop k)

end NodePath

namespace NodePath

/-! ### The path splitter

`splitPathRe = /^(\/?|)([\s\S]*?)((?:\.{1,2}|[^\/]+?|)(\.[^.\/]*|))(?:[\/]*)$/`
(src/path.ts lines 54-58).

Operational reading of the (backtracking, anchored) match:
* group 1 (`\/?|`) takes a leading `/` when present;
* the trailing `(?:[\/]*)` together with the laziness of group 2
  (`[\s\S]*?`) forces: group 2 = everything up to and including the last
  `/` that precedes the last non-`/` character, group 3 = the final
  path component (slash-free), and the trailer = the maximal run of
  trailing slashes.  (Group 2 is lazy, so the shortest group 2 wins;
  groups 3 and 4 cannot contain `/`, hence every `/` except the trailing
  run must be inside group 2.)
* inside group 3, the alternation `(?:\.{1,2}|[^\/]+?|)` tries, in order:
  two dots, one dot, then slash-free prefixes of growing length (lazy
  `+?`), then the empty string; group 4 (`(\.[^.\/]*|)`) must consume the
  entire remainder of the component (anything left over would have to be
  matched by the slash-only trailer), so it succeeds exactly on `""` or
  on `.` followed by dot-free slash-free text.
-/

/-- Whether group 4 `(\.[^.\/]*|)` can consume exactly the remainder `r`
of the final component: `r` is empty, or `r` is a dot followed by
dot-free slash-free text. -/
def extOk (r : List Char) : Prop :=
  r = [] ∨ (r.head? = some '.' ∧ '.' ∉ r.drop 1 ∧ '/' ∉ r.drop 1)

instance : DecidablePred extOk := fun r => by
  unfold extOk
  infer_instance

/-- The lazy `[^\/]+?` branch of group 3: consume characters of the final
component one at a time (shortest first) until group 4 can take the
remainder.  `pre` is the part consumed so far. -/
def lazyCut (pre : List Char) : List Char → List Char × List Char
  | [] => (pre, [])
  | c :: rs => if extOk rs then (pre ++ [c], rs) else lazyCut (pre ++ [c]) rs

/-- Split the final (slash-free) component `f` into
(group 3 minus group 4, group 4) following the regex engine's priority:
`..` first, then `.`, then the lazy branch, then empty. -/
def baseSplit (f : List Char) : List Char × List Char :=
  if f = [] then ([], [])
  else if f.take 2 = ['.', '.'] ∧ extOk (f.drop 2) then
    (['.', '.'], f.drop 2)
  else if f.take 1 = ['.'] ∧ extOk (f.drop 1) then (['.'], f.drop 1)
  else lazyCut [] f

/-- Strip the maximal run of trailing `'/'` characters
(the non-captured `(?:[\/]*)$` trailer of `splitPathRe`). -/
def stripTrailingSlashes (t : List Char) : List Char :=
  (t.reverse.dropWhile (fun c => c = '/')).reverse

/-- The final path component of a slash-trimmed string: the characters
after the last `'/'` (the whole string when it has no `'/'`). -/
def lastComp (m : List Char) : List Char :=
  (m.reverse.takeWhile (fun c => c ≠ '/')).reverse

/-- Everything up to and including the last `'/'` of a slash-trimmed
string (group 2 of `splitPathRe`). -/
def dirPart (m : List Char) : List Char :=
  (m.reverse.dropWhile (fun c => c ≠ '/')).reverse

/-- The four capture groups `[root, dir, basename, ext]` of
`splitPathRe`, as produced by `posixSplitPath` (src/path.ts lines 54-58). -/
structure SplitParts where
  root : List Char
  dir : List Char
  base : List Char
  ext : List Char
deriving DecidableEq, Repr

/-- `posixSplitPath(filename)` (src/path.ts lines 56-58). -/
def posixSplitPathL (s : List Char) : SplitParts :=
  let root : List Char := if isAbsoluteL s then ['/'] else []
  let t := if isAbsoluteL s then s.drop 1 else s
  let m := stripTrailingSlashes t
  { root := root
    dir := dirPart m
    base := lastComp m
    ext := (baseSplit (lastComp m)).2 }

/-- `dirname(path)` (src/path.ts lines 184-200). -/
def dirnameL (s : List Char) : List Char :=
  let sp := posixSplitPathL s
  if sp.root = [] ∧ sp.dir = [] then ['.']
  else sp.root ++ sp.dir.dropLast

/-- `basename(path, ext?)` (src/path.ts lines 204-211).
`f.substr(-ext.length)` is the length-`ext.length` suffix of `f`
(clamped to all of `f` when `ext` is longer, as JS `substr` clamps a
negative start index to 0 — `List.drop` with truncated subtraction has
the same clamping). -/
def basenameL (s : List Char) (ext : Option (List Char)) : List Char :=
  let f := (posixSplitPathL s).base
  match ext with
  | none => f
  | some e =>
    if e ≠ [] ∧ f.drop (f.length - e.length) = e then
      f.take (f.length - e.length)
    else f

/-- `extname(path)` (src/path.ts lines 213-215). -/
def extnameL (s : List Char) : List Char :=
  (posixSplitPathL s).ext

/-- The `Path` record `{root, dir, base, ext, name}` (src/path.ts
lines 217-223), at the character-list level. -/
structure PathObjL where
  root : List Char
  dir : List Char
  base : List Char
  ext : List Char
  name : List Char
deriving DecidableEq, Repr

/-- `parse(pathString)` (src/path.ts lines 246-267) on string input.
`allParts[1].slice(0, allParts[1].length - 1)` drops the trailing
slash kept by the dir capture group (`List.dropLast`); the
`allParts.length !== 4` guard can never fire (the regex always matches)
and the `?? ''` coalescing is dead code since the groups are never
undefined, so both are dropped. -/
def parseL (s : List Char) : PathObjL :=
  let sp := posixSplitPathL s
  { root := sp.root
    dir := sp.root ++ sp.dir.dropLast
    base := sp.base
    ext := sp.ext
    name := sp.base.take (sp.base.length - sp.ext.length) }

/-- `format(pathObject)` (src/path.ts lines 225-244) on a well-typed
record: `(pathObject.dir ? pathObject.dir + sep : '') + (pathObject.base ?? '')`;
the string-typed `dir` is truthy exactly when non-empty. -/
def formatL (r : PathObjL) : List Char :=
  (if r.dir ≠ [] then r.dir ++ ['/'] else []) ++ r.base

end NodePath

namespace NodePath

/-! ### String-level API -/

/-- `isAbsolute(path)` (src/path.ts lines 117-119). -/
def isAbsolute (s : String) : Bool := isAbsoluteL s.data

/-- `normalize(path)` (src/path.ts lines 99-114). -/
def normalize (s : String) : String := ⟨normalizeL s.data⟩

/-- `join(...args)` (src/path.ts lines 122-137) on string arguments. -/
def join (args : List String) : String := ⟨joinL (args.map String.data)⟩

/-- `resolve(...args)` (src/path.ts lines 67-95), working directory
explicit. -/
def resolve (cwd : String) (args : List String) : String :=
  ⟨resolveL cwd.data (args.map String.data)⟩

/-- `relative(from, to)` (src/path.ts lines 141-180), working directory
explicit. -/
def relative (cwd src dst : String) : String :=
  ⟨relativeL cwd.data src.data dst.data⟩

/-- `dirname(path)` (src/path.ts lines 184-200). -/
def dirname (s : String) : String := ⟨dirnameL s.data⟩

/-- `basename(path, ext?)` (src/path.ts lines 204-211). -/
def basename (s : String) (ext : Option String) : String :=
  ⟨basenameL s.data (ext.map String.data)⟩

/-- `extname(path)` (src/path.ts lines 213-215). -/
def extname (s : String) : String := ⟨extnameL s.data⟩

/-- The `Path` record (src/path.ts lines 217-223). -/
structure PathObj where
  root : String
  dir : String
  base : String
  ext : String
  name : String
deriving DecidableEq, Repr

/-- `parse(pathString)` (src/path.ts lines 246-267). -/
def parse (s : String) : PathObj :=
  let r := parseL s.data
  { root := ⟨r.root⟩, dir := ⟨r.dir⟩, base := ⟨r.base⟩
    ext := ⟨r.ext⟩, name := ⟨r.name⟩ }

/-- `format(pathObject)` (src/path.ts lines 225-244) on a well-typed
record. -/
def format (r : PathObj) : String :=
  ⟨formatL ⟨r.root.data, r.dir.data, r.base.data, r.ext.data, r.name.data⟩⟩

/-- `sep` (src/path.ts line 269). -/
def sep : String := "/"

/-- `delimiter` (src/path.ts line 270). -/
def delimiter : String := ":"

end NodePath

namespace NodePath

/-- The `".."` segment literal. -/
def DD : List Char := ['.', '.']

/-- A segment that `normalizeArrayL` can output besides `".."`:
non-empty, not `"."`, slash-free. -/
def GoodSeg (p : List Char) : Prop := p ≠ [] ∧ p ≠ ['.'] ∧ '/' ∉ p

/-- `".."` segments appear only as a leading run. -/
def LeadRun (l : List (List Char)) : Prop :=
  ∃ m rest, l = List.replicate m DD ++ rest ∧ DD ∉ rest

/-- The characters of `f` after its last `'.'` (all of `f` if it has no
dot). -/
def afterLastDot (f : List Char) : List Char :=
  (f.reverse.takeWhile (fun c => c ≠ '.')).reverse

/-- Closed form of the splitter's extension capture on a slash-free
final component: empty when there is no dot, or the component is `.` or
`..`, or its only dot is a single leading one; otherwise the suffix
starting at the last dot. -/
def extnameClosed (f : List Char) : List Char :=
  if '.' ∉ f then []
  else if f = ['.'] ∨ f = ['.', '.'] then []
  else if f.take 1 = ['.'] ∧ f.take 2 ≠ ['.', '.'] ∧ '.' ∉ f.drop 1 then []
  else '.' :: afterLastDot f

/-- The claim's reading of the extension rule: empty when the final
component has no dot or consists of one-or-two leading dots with no
further dot; otherwise the trailing dot-suffix. -/
def extnameClaimed (f : List Char) : List Char :=
  if '.' ∉ f then []
  else if ((f.takeWhile (fun c => c = '.')).length = 1 ∨
      (f.takeWhile (fun c => c = '.')).length = 2) ∧
      '.' ∉ f.drop (f.takeWhile (fun c => c = '.')).length then []
  else '.' :: afterLastDot f

/-- What the lazy branch of group 3 leaves for group 4: the suffix from
the last dot when some dot occurs past the first position, else
nothing. -/
def lazyAns (r : List Char) : List Char :=
  if '.' ∈ r.drop 1 then '.' :: afterLastDot r else []

/-! ### Spec-side definitions, transcribed from the specification text -/

/-- The specification's description of one segment-normalizer step
(spec section 4.1): empty and `.` segments dropped; `..` pops a trailing
real segment, else it is pushed exactly when `allowAboveRoot`, else
dropped; other segments appended verbatim. -/
def segStepSpec (allowAboveRoot : Bool) (acc : List (List Char))
    (seg : List Char) : List (List Char) :=
  if seg = [] ∨ seg = ['.'] then acc
  else if seg = ['.', '.'] then
    if acc ≠ [] ∧ acc.getLast? ≠ some ['.', '.'] then acc.dropLast
    else if allowAboveRoot then acc ++ [['.', '.']] else acc
  else acc ++ [seg]

/-- The specification's normalize pipeline (spec section 4.3, C1): split
on `/`, run the segment normalizer with `allowAboveRoot` iff the input
is relative, rejoin with `/`; an empty relative result becomes `"."`; a
trailing slash of the input is re-appended to a non-empty result; a
leading `/` is restored for absolute inputs. -/
def normalizeSpec (s : String) : String :=
  let core := joinSegs (normalizeArrayL (splitL s.data) (!isAbsoluteL s.data))
  let core := if core = [] ∧ isAbsoluteL s.data = false then ['.'] else core
  let core := if core ≠ [] ∧ s.data.getLast? = some '/' then core ++ ['/']
    else core
  ⟨(if isAbsoluteL s.data = true then ['/'] else []) ++ core⟩

/-! ### Dynamically-typed wrappers (JavaScript argument checking)

The `TypeError` claims concern non-string arguments, so the argument
checking of `join`, `resolve`, `parse` and `format` is modelled over a
type of JavaScript values.  A number stands for any non-string,
non-object primitive; a missing object field models `undefined`. -/

inductive JSVal where
  | str : String → JSVal
  | num : Int → JSVal
  | nullv : JSVal
  | obj : Option JSVal → Option JSVal → Option JSVal → Option JSVal →
      Option JSVal → JSVal

/-- `isString` (src/path.ts line 24). -/
def isStrV : JSVal → Bool
  | .str _ => true
  | _ => false

/-- `isObject` (src/path.ts lines 22-23); `null` is excluded. -/
def isObjV : JSVal → Bool
  | .obj _ _ _ _ _ => true
  | _ => false

/-- The `TypeError`s thrown by the library. -/
inductive TypeErr where
  | typeError : String → TypeErr
deriving DecidableEq

def isError {α : Type} : Except TypeErr α → Bool
  | .error _ => true
  | .ok _ => false

instance : DecidableEq (Except TypeErr String) := fun a b =>
  match a, b with
  | .ok x, .ok y =>
    if h : x = y then isTrue (by rw [h]) else isFalse (by simp [h])
  | .error x, .error y =>
    if h : x = y then isTrue (by rw [h]) else isFalse (by simp [h])
  | .ok _, .error _ => isFalse (by simp)
  | .error _, .ok _ => isFalse (by simp)

/-- The argument loop of `join` (src/path.ts lines 124-135) over dynamic
values: walks the arguments left to right, throwing at the first
non-string. -/
def joinGo : List JSVal → Except TypeErr (List String)
  | [] => .ok []
  | .str s :: rest => (joinGo rest).map (fun l => s :: l)
  | _ :: _ => .error (.typeError "Arguments to path.join must be strings")

/-- `join(...args)` with dynamic argument checking
(src/path.ts lines 122-137). -/
def joinV (args : List JSVal) : Except TypeErr String :=
  (joinGo args).map join

/-- The argument scan of `resolve` (src/path.ts lines 71-86) over
dynamic values, right to left (the input list is the reversed argument
list): skips empty strings, stops at an absolute string, and throws on
the first non-string value it actually reaches. -/
def resolveGoV (cwd : String) (acc : String) :
    List JSVal → Except TypeErr (String × Bool)
  | [] =>
    if cwd = "" then .ok (acc, false)
    else .ok (cwd ++ "/" ++ acc, isAbsolute cwd)
  | .str s :: rest =>
    if s = "" then resolveGoV cwd acc rest
    else if isAbsolute s then .ok (s ++ "/" ++ acc, true)
    else resolveGoV cwd (s ++ "/" ++ acc) rest
  | _ :: _ =>
    .error (.typeError "Arguments to path.resolve must be strings")

/-- `resolve(...args)` with dynamic argument checking
(src/path.ts lines 67-95). -/
def resolveV (cwd : String) (args : List JSVal) : Except TypeErr String :=
  (resolveGoV cwd "" args.reverse).map
    (fun rb => (if rb.2 then "/" else "") ++
      ⟨joinSegs (normalizeArrayL (splitL rb.1.data) (!rb.2))⟩)

/-- `parse(pathString)` with dynamic argument checking
(src/path.ts lines 246-251). -/
def parseV : JSVal → Except TypeErr PathObj
  | .str s => .ok (parse s)
  | _ => .error (.typeError "Parameter pathString must be a string")

/-- JavaScript truthiness of an optional field value. -/
def truthyV : Option JSVal → Bool
  | none => false
  | some .nullv => false
  | some (.str s) => s ≠ ""
  | some (.num n) => n ≠ 0
  | some (.obj _ _ _ _ _) => true

/-- JavaScript string coercion for the values `format` concatenates. -/
def jsToStr : JSVal → String
  | .str s => s
  | .num n => toString n
  | .nullv => "null"
  | .obj _ _ _ _ _ => "[object Object]"

def optToStr : Option JSVal → String
  | none => "undefined"
  | some v => jsToStr v

/-- `format(pathObject)` with dynamic checking (src/path.ts lines
225-244): non-objects throw; `root ?? ''` must be a string, so a
missing (`undefined`) or `null` root passes as `''`; a truthy `dir`
contributes `dir + sep`; `base ?? ''` is appended. -/
def formatV : JSVal → Except TypeErr String
  | .obj root dir base _ _ =>
    let r := match root with
      | none => JSVal.str ""
      | some .nullv => JSVal.str ""
      | some v => v
    if isStrV r then
      .ok ((if truthyV dir then optToStr dir ++ sep else "") ++
        (match base with
          | none => ""
          | some .nullv => ""
          | some v => jsToStr v))
    else
      .error (.typeError "pathObject.root must be a string or undefined")
  | _ => .error (.typeError "Parameter pathObject must be an object")

/-- A dynamic value that is not an absolute-path string (such values can
never stop `resolve`'s right-to-left scan). -/
def noAbsStr : JSVal → Bool
  | .str s => !isAbsolute s
  | _ => true

end NodePath

namespace NodePath

/-! ### Lemmas about `splitL` and `joinSegs` -/

theorem splitL_cons_eq {rest a : List Char} {as : List (List Char)}
    (c : Char) (h : splitL rest = a :: as) :
    splitL (c :: rest) = if c = '/' then [] :: a :: as
      else (c :: a) :: as := by
  simp only [splitL, h]

theorem splitL_ne_nil (s : List Char) : splitL s ≠ [] := by
  induction s with
  | nil => simp [splitL]
  | cons c rest ih =>
    rcases hs : splitL rest with _ | ⟨a, as⟩
    · exact absurd hs ih
    · rw [splitL_cons_eq c hs]
      split <;> simp

theorem splitL_slash_cons (w : List Char) :
    splitL ('/' :: w) = [] :: splitL w := by
  rcases hs : splitL w with _ | ⟨a, as⟩
  · exact absurd hs (splitL_ne_nil w)
  · rw [splitL_cons_eq '/' hs, if_pos rfl]

theorem splitL_append_slash (u v : List Char) :
    splitL (u ++ '/' :: v) = splitL u ++ splitL v := by
  induction u with
  | nil => rw [List.nil_append, splitL_slash_cons]; rfl
  | cons c u ih =>
    rcases hs : splitL u with _ | ⟨a, as⟩
    · exact absurd hs (splitL_ne_nil u)
    · have h2 : splitL (u ++ '/' :: v) = a :: (as ++ splitL v) := by
        rw [ih, hs]; rfl
      rw [List.cons_append, splitL_cons_eq c h2, splitL_cons_eq c hs]
      by_cases hc : c = '/' <;> simp [hc]

theorem splitL_no_slash (u : List Char) (h : '/' ∉ u) : splitL u = [u] := by
  induction u with
  | nil => rfl
  | cons c u ih =>
    have hc : c ≠ '/' := fun e => h (e ▸ List.mem_cons_self c u)
    have hu : '/' ∉ u := fun m => h (List.mem_cons_of_mem c m)
    rw [splitL_cons_eq c (ih hu), if_neg hc]

theorem not_slash_mem_splitL (s : List Char) : ∀ x ∈ splitL s, '/' ∉ x := by
  induction s with
  | nil =>
    intro x hx
    simp [splitL] at hx
    simp [hx]
  | cons c rest ih =>
    intro x hx
    rcases hs : splitL rest with _ | ⟨a, as⟩
    · exact absurd hs (splitL_ne_nil rest)
    · rw [splitL_cons_eq c hs] at hx
      by_cases hc : c = '/'
      · rw [if_pos hc] at hx
        rcases List.mem_cons.mp hx with rfl | hx2
        · simp
        · exact ih x (hs ▸ hx2)
      · rw [if_neg hc] at hx
        rcases List.mem_cons.mp hx with rfl | hx2
        · intro hm
          rcases List.mem_cons.mp hm with e | hm'
          · exact hc e.symm
          · exact ih a (hs ▸ List.mem_cons_self a as) hm'
        · exact ih x (hs ▸ List.mem_cons_of_mem a hx2)

theorem joinSegs_cons (a : List Char) (l : List (List Char)) (h : l ≠ []) :
    joinSegs (a :: l) = a ++ '/' :: joinSegs l := by
  cases l with
  | nil => exact absurd rfl h
  | cons b bs => rfl

theorem splitL_joinSegs (l : List (List Char)) (hne : l ≠ [])
    (h : ∀ x ∈ l, '/' ∉ x) : splitL (joinSegs l) = l := by
  induction l with
  | nil => exact absurd rfl hne
  | cons a l ih =>
    cases l with
    | nil =>
      show splitL (joinSegs [a]) = [a]
      exact splitL_no_slash a (h a (List.mem_cons_self a []))
    | cons b bs =>
      rw [joinSegs_cons _ _ (by simp), splitL_append_slash,
        splitL_no_slash a (h a (List.mem_cons_self a (b :: bs))),
        ih (by simp) (fun x hx => h x (List.mem_cons_of_mem a hx))]
      rfl

theorem joinSegs_ne_nil (a : List Char) (l : List (List Char)) (ha : a ≠ []) :
    joinSegs (a :: l) ≠ [] := by
  cases l with
  | nil => exact ha
  | cons b bs =>
    rw [joinSegs_cons _ _ (by simp)]
    simp [ha]

theorem joinSegs_head (a : List Char) (l : List (List Char)) (ha : a ≠ []) :
    (joinSegs (a :: l)).head? = a.head? := by
  cases l with
  | nil => rfl
  | cons b bs =>
    rw [joinSegs_cons _ _ (by simp)]
    cases a with
    | nil => exact absurd rfl ha
    | cons x xs => rfl

theorem joinSegs_getLast (l : List (List Char)) (hne : l ≠ [])
    (h : ∀ x ∈ l, x ≠ []) :
    ∀ c, (joinSegs l).getLast? = some c →
      ∃ x ∈ l, x.getLast? = some c := by
  induction l with
  | nil => exact absurd rfl hne
  | cons a l ih =>
    intro c hc
    cases l with
    | nil => exact ⟨a, List.mem_cons_self a [], hc⟩
    | cons b bs =>
      rw [joinSegs_cons _ _ (by simp)] at hc
      have hb : joinSegs (b :: bs) ≠ [] :=
        joinSegs_ne_nil b bs (h b (List.mem_cons_of_mem a (List.mem_cons_self b bs)))
      rw [List.getLast?_append_of_ne_nil _ (by simp),
        show ('/' :: joinSegs (b :: bs)) = ['/'] ++ joinSegs (b :: bs) from rfl,
        List.getLast?_append_of_ne_nil _ hb] at hc
      obtain ⟨x, hx, he⟩ := ih (by simp) (fun x hx => h x (List.mem_cons_of_mem a hx)) c hc
      exact ⟨x, List.mem_cons_of_mem a hx, he⟩

theorem joinSegs_getLast_ne_slash (l : List (List Char)) (hne : l ≠ [])
    (h : ∀ x ∈ l, x ≠ [] ∧ '/' ∉ x) :
    (joinSegs l).getLast? ≠ some '/' := by
  intro hc
  obtain ⟨x, hx, he⟩ := joinSegs_getLast l hne (fun x hx => (h x hx).1) '/' hc
  obtain ⟨ys, rfl⟩ := List.getLast?_eq_some_iff.mp he
  exact (h _ hx).2 (by simp)

/-! ### Lemmas about `normalizeArrayL` -/

theorem naStep_skip (allow : Bool) (res : List (List Char)) (p : List Char)
    (h : p = [] ∨ p = ['.']) : naStep allow res p = res := by
  unfold naStep
  rw [if_pos h]

theorem naStep_real (allow : Bool) (res : List (List Char)) (p : List Char)
    (h1 : p ≠ []) (h2 : p ≠ ['.']) (h3 : p ≠ ['.', '.']) :
    naStep allow res p = res ++ [p] := by
  unfold naStep
  rw [if_neg (not_or.mpr ⟨h1, h2⟩), if_neg h3]

theorem naStep_good (allow : Bool) (acc : List (List Char)) (p : List Char)
    (hacc : ∀ x ∈ acc, GoodSeg x) (hp : '/' ∉ p) :
    ∀ x ∈ naStep allow acc p, GoodSeg x := by
  intro x hx
  unfold naStep at hx
  by_cases h1 : p = [] ∨ p = ['.']
  · rw [if_pos h1] at hx; exact hacc x hx
  · rw [if_neg h1] at hx
    by_cases h2 : p = ['.', '.']
    · rw [if_pos h2] at hx
      by_cases h3 : acc ≠ [] ∧ acc.getLast? ≠ some ['.', '.']
      · rw [if_pos h3] at hx
        exact hacc x (List.dropLast_subset _ hx)
      · rw [if_neg h3] at hx
        by_cases h4 : allow = true
        · rw [if_pos h4] at hx
          rcases List.mem_append.mp hx with hx | hx
          · exact hacc x hx
          · rw [List.mem_singleton.mp hx]
            exact ⟨by decide, by decide, by decide⟩
        · rw [if_neg h4] at hx; exact hacc x hx
    · rw [if_neg h2] at hx
      rcases List.mem_append.mp hx with hx | hx
      · exact hacc x hx
      · rw [List.mem_singleton.mp hx]
        exact ⟨fun e => h1 (Or.inl e), fun e => h1 (Or.inr e), hp⟩

theorem foldl_naStep_good (allow : Bool) (parts : List (List Char)) :
    ∀ acc, (∀ x ∈ acc, GoodSeg x) → (∀ x ∈ parts, '/' ∉ x) →
      ∀ x ∈ parts.foldl (naStep allow) acc, GoodSeg x := by
  induction parts with
  | nil => exact fun acc hacc _ => hacc
  | cons p ps ih =>
    intro acc hacc hparts
    exact ih (naStep allow acc p)
      (naStep_good allow acc p hacc (hparts p (List.mem_cons_self p ps)))
      (fun y hy => hparts y (List.mem_cons_of_mem p hy))

theorem normalizeArrayL_good (parts : List (List Char)) (allow : Bool)
    (hparts : ∀ x ∈ parts, '/' ∉ x) :
    ∀ x ∈ normalizeArrayL parts allow, GoodSeg x :=
  foldl_naStep_good allow parts [] (by simp) hparts

theorem naStep_no_dd (acc : List (List Char)) (p : List Char)
    (hacc : ∀ x ∈ acc, x ≠ DD) :
    ∀ x ∈ naStep false acc p, x ≠ DD := by
  intro x hx
  unfold naStep at hx
  by_cases h1 : p = [] ∨ p = ['.']
  · rw [if_pos h1] at hx; exact hacc x hx
  · rw [if_neg h1] at hx
    by_cases h2 : p = ['.', '.']
    · rw [if_pos h2] at hx
      by_cases h3 : acc ≠ [] ∧ acc.getLast? ≠ some ['.', '.']
      · rw [if_pos h3] at hx
        exact hacc x (List.dropLast_subset _ hx)
      · rw [if_neg h3, if_neg (by decide)] at hx
        exact hacc x hx
    · rw [if_neg h2] at hx
      rcases List.mem_append.mp hx with hx | hx
      · exact hacc x hx
      · rw [List.mem_singleton.mp hx]
        exact h2

theorem foldl_naStep_no_dd (parts : List (List Char)) :
    ∀ acc, (∀ x ∈ acc, x ≠ DD) →
      ∀ x ∈ parts.foldl (naStep false) acc, x ≠ DD := by
  induction parts with
  | nil => exact fun acc hacc => hacc
  | cons p ps ih =>
    intro acc hacc
    exact ih (naStep false acc p) (naStep_no_dd acc p hacc)

theorem normalizeArrayL_no_dd (parts : List (List Char)) :
    ∀ x ∈ normalizeArrayL parts false, x ≠ DD :=
  foldl_naStep_no_dd parts [] (by simp)

theorem getLast?_replicate_dd (m : Nat) (hm : m ≠ 0) :
    (List.replicate m DD).getLast? = some DD := by
  cases m with
  | zero => exact absurd rfl hm
  | succ k => rw [List.replicate_succ', List.getLast?_concat]

theorem naStep_leadRun (acc : List (List Char)) (p : List Char)
    (h : LeadRun acc) : LeadRun (naStep true acc p) := by
  obtain ⟨m, rest, rfl, hdd⟩ := h
  unfold naStep
  by_cases h1 : p = [] ∨ p = ['.']
  · rw [if_pos h1]; exact ⟨m, rest, rfl, hdd⟩
  rw [if_neg h1]
  by_cases h2 : p = ['.', '.']
  · rw [if_pos h2]
    by_cases h3 : (List.replicate m DD ++ rest) ≠ [] ∧
        (List.replicate m DD ++ rest).getLast? ≠ some ['.', '.']
    · rw [if_pos h3]
      rcases eq_or_ne rest [] with rfl | hrest
      · exfalso
        apply h3.2
        rw [List.append_nil] at h3 ⊢
        have hm : m ≠ 0 := by
          intro e
          exact h3.1 (by simp [e])
        exact getLast?_replicate_dd m hm
      · rw [List.dropLast_append_of_ne_nil _ hrest]
        exact ⟨m, rest.dropLast, rfl, fun hx => hdd (List.dropLast_subset _ hx)⟩
    · rw [if_neg h3, if_pos rfl]
      have hrest : rest = [] := by
        rcases not_and_or.mp h3 with h4 | h4
        · rcases List.append_eq_nil.mp (not_not.mp h4) with ⟨_, h5⟩
          exact h5
        · by_contra hne
          have h5 : rest.getLast? = some ['.', '.'] := by
            have h6 := not_not.mp h4
            rwa [List.getLast?_append_of_ne_nil _ hne] at h6
          obtain ⟨ys, hys⟩ := List.getLast?_eq_some_iff.mp h5
          exact hdd (hys ▸ List.mem_append_right ys (List.mem_singleton_self _))
      subst hrest
      refine ⟨m + 1, [], ?_, by simp⟩
      rw [List.append_nil, List.append_nil, List.replicate_succ']
      rfl
  · rw [if_neg h2]
    refine ⟨m, rest ++ [p], by rw [List.append_assoc], ?_⟩
    intro hx
    rcases List.mem_append.mp hx with hx | hx
    · exact hdd hx
    · exact h2 (List.mem_singleton.mp hx).symm

theorem foldl_naStep_leadRun (parts : List (List Char)) :
    ∀ acc, LeadRun acc → LeadRun (parts.foldl (naStep true) acc) := by
  induction parts with
  | nil => exact fun _ h => h
  | cons p ps ih => exact fun acc h => ih _ (naStep_leadRun acc p h)

theorem normalizeArrayL_leadRun (parts : List (List Char)) :
    LeadRun (normalizeArrayL parts true) :=
  foldl_naStep_leadRun parts [] ⟨0, [], rfl, by simp⟩

theorem foldl_naStep_reals (allow : Bool) (l : List (List Char))
    (h : ∀ x ∈ l, x ≠ [] ∧ x ≠ ['.'] ∧ x ≠ ['.', '.']) :
    ∀ acc, l.foldl (naStep allow) acc = acc ++ l := by
  induction l with
  | nil => intro acc; simp
  | cons p ps ih =>
    intro acc
    obtain ⟨h1, h2, h3⟩ := h p (List.mem_cons_self p ps)
    rw [List.foldl_cons, naStep_real allow acc p h1 h2 h3,
      ih (fun x hx => h x (List.mem_cons_of_mem p hx)) (acc ++ [p]),
      List.append_assoc]
    rfl

theorem naStep_true_dd_run (i : Nat) :
    naStep true (List.replicate i DD) DD = List.replicate (i + 1) DD := by
  unfold naStep
  rw [if_neg (by decide), if_pos (by decide : DD = ['.', '.'])]
  cases i with
  | zero =>
    rw [if_neg (by simp), if_pos rfl]
    rfl
  | succ k =>
    rw [if_neg, if_pos rfl]
    · rw [List.replicate_succ' (k + 1)]
      rfl
    · intro hcon
      exact hcon.2 (getLast?_replicate_dd (k + 1) (by simp))

theorem foldl_naStep_dd_run (k : Nat) :
    ∀ i, (List.replicate k DD).foldl (naStep true) (List.replicate i DD) =
      List.replicate (i + k) DD := by
  induction k with
  | zero => intro i; simp
  | succ n ih =>
    intro i
    rw [List.replicate_succ, List.foldl_cons, naStep_true_dd_run i, ih (i + 1)]
    congr 1
    omega

theorem normalizeArrayL_fix_false (L : List (List Char))
    (hgood : ∀ x ∈ L, x ≠ [] ∧ x ≠ ['.']) (hdd : DD ∉ L) :
    normalizeArrayL L false = L := by
  unfold normalizeArrayL
  rw [foldl_naStep_reals false L
    (fun x hx => ⟨(hgood x hx).1, (hgood x hx).2,
      fun e => hdd (show DD ∈ L by rw [show DD = ['.', '.'] from rfl]; exact e ▸ hx)⟩) []]
  rfl

theorem normalizeArrayL_fix_true (L : List (List Char))
    (hgood : ∀ x ∈ L, x ≠ [] ∧ x ≠ ['.']) (hlr : LeadRun L) :
    normalizeArrayL L true = L := by
  obtain ⟨m, rest, rfl, hdd⟩ := hlr
  unfold normalizeArrayL
  rw [List.foldl_append]
  have h1 : (List.replicate m DD).foldl (naStep true) [] =
      List.replicate m DD := by
    have h2 := foldl_naStep_dd_run m 0
    simpa using h2
  rw [h1, foldl_naStep_reals true rest
    (fun x hx =>
      ⟨(hgood x (List.mem_append_right _ hx)).1,
       (hgood x (List.mem_append_right _ hx)).2,
       fun e => hdd (show DD ∈ rest by
         rw [show DD = ['.', '.'] from rfl]; exact e ▸ hx)⟩)]

theorem normalizeArrayL_cons_nil (parts : List (List Char)) (allow : Bool) :
    normalizeArrayL ([] :: parts) allow = normalizeArrayL parts allow := by
  unfold normalizeArrayL
  rw [List.foldl_cons, naStep_skip allow [] [] (Or.inl rfl)]

theorem normalizeArrayL_snoc_nil (parts : List (List Char)) (allow : Bool) :
    normalizeArrayL (parts ++ [[]]) allow = normalizeArrayL parts allow := by
  unfold normalizeArrayL
  rw [List.foldl_append, List.foldl_cons,
    naStep_skip allow _ [] (Or.inl rfl), List.foldl_nil]

/-! ### `normalizeL` on already-clean paths -/

theorem joinSegs_getLast_ne_slash' (l : List (List Char))
    (hgood : ∀ x ∈ l, GoodSeg x) (hne : l ≠ []) :
    (joinSegs l).getLast? ≠ some '/' :=
  joinSegs_getLast_ne_slash l hne
    (fun x hx => ⟨(hgood x hx).1, (hgood x hx).2.2⟩)

/-- An absolute path assembled from a clean (no-`".."`) segment list is a
fixpoint of `normalizeL`. -/
theorem normalizeL_abs_clean (L : List (List Char))
    (hgood : ∀ x ∈ L, GoodSeg x) (hdd : DD ∉ L) :
    normalizeL ('/' :: joinSegs L) = '/' :: joinSegs L := by
  cases L with
  | nil => decide
  | cons a l =>
    have ha : a ≠ [] := (hgood a (List.mem_cons_self a l)).1
    have hslash : ∀ x ∈ a :: l, '/' ∉ x := fun x hx => (hgood x hx).2.2
    have hJne : joinSegs (a :: l) ≠ [] := joinSegs_ne_nil a l ha
    have hsplit : splitL ('/' :: joinSegs (a :: l)) = [] :: a :: l := by
      rw [splitL_slash_cons, splitL_joinSegs (a :: l) (by simp) hslash]
    have hlast : ('/' :: joinSegs (a :: l)).getLast? ≠ some '/' := by
      rw [show ('/' :: joinSegs (a :: l)) = ['/'] ++ joinSegs (a :: l)
          from rfl,
        List.getLast?_append_of_ne_nil _ hJne]
      exact joinSegs_getLast_ne_slash' (a :: l) hgood (by simp)
    have hna : normalizeArrayL ([] :: a :: l) false = a :: l := by
      rw [normalizeArrayL_cons_nil, normalizeArrayL_fix_false (a :: l)
        (fun x hx => ⟨(hgood x hx).1, (hgood x hx).2.1⟩) hdd]
    have habs : isAbsoluteL ('/' :: joinSegs (a :: l)) = true := rfl
    simp only [normalizeL, habs, hsplit, Bool.not_true, hna]
    split_ifs <;> first | rfl | tauto

/-- A relative path assembled from a clean leading-`".."`-run segment
list is a fixpoint of `normalizeL`. -/
theorem normalizeL_rel_clean (L : List (List Char))
    (hgood : ∀ x ∈ L, GoodSeg x) (hlr : LeadRun L) (hne : L ≠ []) :
    normalizeL (joinSegs L) = joinSegs L := by
  cases L with
  | nil => exact absurd rfl hne
  | cons a l =>
    have ha : a ≠ [] := (hgood a (List.mem_cons_self a l)).1
    have hslash : ∀ x ∈ a :: l, '/' ∉ x := fun x hx => (hgood x hx).2.2
    have hJne : joinSegs (a :: l) ≠ [] := joinSegs_ne_nil a l ha
    have hsplit : splitL (joinSegs (a :: l)) = a :: l :=
      splitL_joinSegs (a :: l) (by simp) hslash
    have hlast : (joinSegs (a :: l)).getLast? ≠ some '/' :=
      joinSegs_getLast_ne_slash' (a :: l) hgood (by simp)
    have habs : isAbsoluteL (joinSegs (a :: l)) = false := by
      have hhd := joinSegs_head a l ha
      cases hj : joinSegs (a :: l) with
      | nil => rfl
      | cons c cs =>
        cases a with
        | nil => exact absurd rfl ha
        | cons b bs =>
          rw [hj] at hhd
          have hb : c = b := by
            simpa using hhd
          subst hb
          have hbne : c ≠ '/' := by
            intro e
            exact (hgood (c :: bs) (List.mem_cons_self _ l)).2.2
              (e ▸ List.mem_cons_self c bs)
          simp [isAbsoluteL, hbne]
    have hna : normalizeArrayL (a :: l) true = a :: l :=
      normalizeArrayL_fix_true (a :: l)
        (fun x hx => ⟨(hgood x hx).1, (hgood x hx).2.1⟩) hlr
    simp only [normalizeL, habs, hsplit, Bool.not_false, hna]
    split_ifs <;> first | rfl | tauto

theorem joinSegs_cons_head (b : Char) (bs : List Char)
    (l : List (List Char)) :
    ∃ u, joinSegs ((b :: bs) :: l) = b :: u := by
  cases l with
  | nil => exact ⟨bs, rfl⟩
  | cons x xs => exact ⟨bs ++ '/' :: joinSegs (x :: xs), rfl⟩

theorem isAbsoluteL_cons_ne (c : Char) (xs : List Char) (hc : c ≠ '/') :
    isAbsoluteL (c :: xs) = false := by
  simp [isAbsoluteL, hc]

/-- An absolute clean path with a trailing slash is a fixpoint of
`normalizeL`. -/
theorem normalizeL_abs_clean_tr (L : List (List Char))
    (hgood : ∀ x ∈ L, GoodSeg x) (hdd : DD ∉ L) (hne : L ≠ []) :
    normalizeL ('/' :: (joinSegs L ++ ['/'])) =
      '/' :: (joinSegs L ++ ['/']) := by
  cases L with
  | nil => exact absurd rfl hne
  | cons a l =>
    have ha : a ≠ [] := (hgood a (List.mem_cons_self a l)).1
    have hslash : ∀ x ∈ a :: l, '/' ∉ x := fun x hx => (hgood x hx).2.2
    have hJne : joinSegs (a :: l) ≠ [] := joinSegs_ne_nil a l ha
    have hsplit : splitL ('/' :: (joinSegs (a :: l) ++ ['/'])) =
        ([] :: a :: l) ++ [[]] := by
      rw [show joinSegs (a :: l) ++ ['/'] =
          joinSegs (a :: l) ++ '/' :: [] from rfl,
        splitL_slash_cons, splitL_append_slash,
        splitL_joinSegs (a :: l) (by simp) hslash]
      rfl
    have hna : normalizeArrayL (([] :: a :: l) ++ [[]]) false = a :: l := by
      rw [normalizeArrayL_snoc_nil, normalizeArrayL_cons_nil,
        normalizeArrayL_fix_false (a :: l)
          (fun x hx => ⟨(hgood x hx).1, (hgood x hx).2.1⟩) hdd]
    have habs : isAbsoluteL ('/' :: (joinSegs (a :: l) ++ ['/'])) = true := rfl
    have htr : ('/' :: (joinSegs (a :: l) ++ ['/'])).getLast? = some '/' := by
      rw [show ('/' :: (joinSegs (a :: l) ++ ['/'])) =
        ('/' :: joinSegs (a :: l)) ++ ['/'] from rfl, List.getLast?_concat]
    simp only [normalizeL, habs, hsplit, Bool.not_true, hna, htr]
    split_ifs <;> first | rfl | tauto

/-- A relative clean path with a trailing slash is a fixpoint of
`normalizeL`. -/
theorem normalizeL_rel_clean_tr (L : List (List Char))
    (hgood : ∀ x ∈ L, GoodSeg x) (hlr : LeadRun L) (hne : L ≠ []) :
    normalizeL (joinSegs L ++ ['/']) = joinSegs L ++ ['/'] := by
  cases L with
  | nil => exact absurd rfl hne
  | cons a l =>
    have ha : a ≠ [] := (hgood a (List.mem_cons_self a l)).1
    have hslash : ∀ x ∈ a :: l, '/' ∉ x := fun x hx => (hgood x hx).2.2
    have hJne : joinSegs (a :: l) ≠ [] := joinSegs_ne_nil a l ha
    have hsplit : splitL (joinSegs (a :: l) ++ ['/']) =
        (a :: l) ++ [[]] := by
      rw [show joinSegs (a :: l) ++ ['/'] =
          joinSegs (a :: l) ++ '/' :: [] from rfl,
        splitL_append_slash, splitL_joinSegs (a :: l) (by simp) hslash]
      rfl
    have hna : normalizeArrayL ((a :: l) ++ [[]]) true = a :: l := by
      rw [normalizeArrayL_snoc_nil,
        normalizeArrayL_fix_true (a :: l)
          (fun x hx => ⟨(hgood x hx).1, (hgood x hx).2.1⟩) hlr]
    have habs : isAbsoluteL (joinSegs (a :: l) ++ ['/']) = false := by
      cases a with
      | nil => exact absurd rfl ha
      | cons b bs =>
        obtain ⟨u, hu⟩ := joinSegs_cons_head b bs l
        have hb : b ≠ '/' := by
          intro e
          exact (hgood (b :: bs) (List.mem_cons_self _ l)).2.2
            (e ▸ List.mem_cons_self b bs)
        rw [hu, List.cons_append]
        exact isAbsoluteL_cons_ne b _ hb
    have htr : (joinSegs (a :: l) ++ ['/']).getLast? = some '/' :=
      List.getLast?_concat _
    simp only [normalizeL, habs, hsplit, Bool.not_false, hna, htr]
    split_ifs <;> first | rfl | tauto

/-- Idempotence of `normalizeL`, by case analysis on the shape of the
first normalization's output. -/
theorem normalizeL_idem (s : List Char) :
    normalizeL (normalizeL s) = normalizeL s := by
  have hgoodL := normalizeArrayL_good (splitL s) (!isAbsoluteL s)
    (not_slash_mem_splitL s)
  by_cases habs : isAbsoluteL s = true
  · rcases hL : normalizeArrayL (splitL s) (!isAbsoluteL s) with _ | ⟨a, l⟩
    · have hL' : normalizeArrayL (splitL s) false = [] := by
        rw [habs] at hL
        simpa using hL
      by_cases htr : s.getLast? = some '/'
      · have hs : normalizeL s = ['/'] := by
          simp [normalizeL, habs, hL', htr, joinSegs]
        rw [hs]; decide
      · have hs : normalizeL s = ['/'] := by
          simp [normalizeL, habs, hL', htr, joinSegs]
        rw [hs]; decide
    · have hL' : normalizeArrayL (splitL s) false = a :: l := by
        rw [habs] at hL
        simpa using hL
      have hgood2 : ∀ x ∈ a :: l, GoodSeg x := hL ▸ hgoodL
      have hdd2 : DD ∉ a :: l := by
        have h0 : ∀ x ∈ a :: l, x ≠ DD := hL' ▸ normalizeArrayL_no_dd (splitL s)
        exact fun hmem => h0 DD hmem rfl
      have hJne : joinSegs (a :: l) ≠ [] :=
        joinSegs_ne_nil a l (hgood2 a (List.mem_cons_self a l)).1
      by_cases htr : s.getLast? = some '/'
      · have hs : normalizeL s = '/' :: (joinSegs (a :: l) ++ ['/']) := by
          simp only [normalizeL, habs, Bool.not_true, hL', htr]
          split_ifs <;> first | rfl | tauto
        rw [hs, normalizeL_abs_clean_tr (a :: l) hgood2 hdd2 (by simp)]
      · have hs : normalizeL s = '/' :: joinSegs (a :: l) := by
          simp only [normalizeL, habs, Bool.not_true, hL', htr]
          split_ifs <;> first | rfl | tauto
        rw [hs, normalizeL_abs_clean (a :: l) hgood2 hdd2]
  · have habs' : isAbsoluteL s = false := by
      simpa using habs
    rcases hL : normalizeArrayL (splitL s) (!isAbsoluteL s) with _ | ⟨a, l⟩
    · have hL' : normalizeArrayL (splitL s) true = [] := by
        rw [habs'] at hL
        simpa using hL
      by_cases htr : s.getLast? = some '/'
      · have hs : normalizeL s = ['.', '/'] := by
          simp [normalizeL, habs', hL', htr, joinSegs]
        rw [hs]; decide
      · have hs : normalizeL s = ['.'] := by
          simp [normalizeL, habs', hL', htr, joinSegs]
        rw [hs]; decide
    · have hL' : normalizeArrayL (splitL s) true = a :: l := by
        rw [habs'] at hL
        simpa using hL
      have hgood2 : ∀ x ∈ a :: l, GoodSeg x := hL ▸ hgoodL
      have hlr2 : LeadRun (a :: l) := hL' ▸ normalizeArrayL_leadRun (splitL s)
      have hJne : joinSegs (a :: l) ≠ [] :=
        joinSegs_ne_nil a l (hgood2 a (List.mem_cons_self a l)).1
      by_cases htr : s.getLast? = some '/'
      · have hs : normalizeL s = joinSegs (a :: l) ++ ['/'] := by
          simp only [normalizeL, habs', Bool.not_false, hL', htr]
          split_ifs <;> first | rfl | tauto
        rw [hs, normalizeL_rel_clean_tr (a :: l) hgood2 hlr2 (by simp)]
      · have hs : normalizeL s = joinSegs (a :: l) := by
          simp only [normalizeL, habs', Bool.not_false, hL', htr]
          split_ifs <;> first | rfl | tauto
        rw [hs, normalizeL_rel_clean (a :: l) hgood2 hlr2 (by simp)]

/-! ### Lemmas about `resolveL` and `relativeL` -/

theorem isAbsoluteL_ne_nil (x : List Char) (h : isAbsoluteL x = true) :
    x ≠ [] := by
  intro e
  subst e
  simp [isAbsoluteL] at h

theorem isAbsoluteL_cons_iff (c : Char) (cs : List Char) :
    isAbsoluteL (c :: cs) = true ↔ c = '/' := by
  by_cases hc : c = '/'
  · subst hc
    simp [isAbsoluteL]
  · rw [isAbsoluteL_cons_ne c cs hc]
    simp [hc]

/-- Whenever the working directory is absolute, the `resolve` loop always
ends with `resolvedAbsolute = true`. -/
theorem resolveGo_snd_true (cwd : List Char) (hcwd : isAbsoluteL cwd = true) :
    ∀ (l : List (List Char)) (acc : List Char),
      (resolveGo cwd acc l).2 = true := by
  intro l
  induction l with
  | nil =>
    intro acc
    unfold resolveGo
    rw [if_neg (isAbsoluteL_ne_nil cwd hcwd)]
    exact hcwd
  | cons a rest ih =>
    intro acc
    unfold resolveGo
    by_cases ha : a = []
    · rw [if_pos ha]
      exact ih acc
    · rw [if_neg ha]
      by_cases habs : isAbsoluteL a
      · rw [if_pos habs]
      · rw [if_neg habs]
        exact ih (a ++ '/' :: acc)

/-- Under an absolute working directory, `resolve` produces a leading
slash followed by the normalized segments of the accumulated path. -/
theorem resolveL_eq (cwd : List Char) (args : List (List Char))
    (hcwd : isAbsoluteL cwd = true) :
    resolveL cwd args =
      '/' :: joinSegs
        (normalizeArrayL (splitL (resolveGo cwd [] args.reverse).1) false) := by
  have h2 := resolveGo_snd_true cwd hcwd args.reverse []
  simp [resolveL, h2]

theorem dropWhile_ne_nil_id (l : List (List Char))
    (h : ∀ x ∈ l, x ≠ []) :
    l.dropWhile (fun x => x = []) = l := by
  cases l with
  | nil => rfl
  | cons a as =>
    rw [List.dropWhile_cons]
    simp [h a (List.mem_cons_self a as)]

theorem trimL_id (l : List (List Char)) (h : ∀ x ∈ l, x ≠ []) :
    trimL l = l := by
  unfold trimL
  rw [dropWhile_ne_nil_id l h,
    dropWhile_ne_nil_id l.reverse (fun x hx => h x (List.mem_reverse.mp hx)),
    List.reverse_reverse]

theorem trimL_nil_singleton : trimL [([] : List Char)] = [] := by decide

theorem commonPrefixLen_le_left (a b : List (List Char)) :
    commonPrefixLen a b ≤ a.length := by
  induction a generalizing b with
  | nil => simp [commonPrefixLen]
  | cons x xs ih =>
    cases b with
    | nil => simp [commonPrefixLen]
    | cons y ys =>
      unfold commonPrefixLen
      split_ifs with h
      · have := ih ys
        simp only [List.length_cons]
        omega
      · simp

theorem commonPrefixLen_le_right (a b : List (List Char)) :
    commonPrefixLen a b ≤ b.length := by
  induction a generalizing b with
  | nil => simp [commonPrefixLen]
  | cons x xs ih =>
    cases b with
    | nil => simp [commonPrefixLen]
    | cons y ys =>
      unfold commonPrefixLen
      split_ifs with h
      · have := ih ys
        simp only [List.length_cons]
        omega
      · simp

theorem commonPrefixLen_take (a b : List (List Char)) :
    a.take (commonPrefixLen a b) = b.take (commonPrefixLen a b) := by
  induction a generalizing b with
  | nil => simp [commonPrefixLen]
  | cons x xs ih =>
    cases b with
    | nil => simp [commonPrefixLen]
    | cons y ys =>
      unfold commonPrefixLen
      split_ifs with h
      · subst h
        simp only [List.take_succ_cons]
        rw [ih ys]
      · simp

theorem commonPrefixLen_self (a : List (List Char)) :
    commonPrefixLen a a = a.length := by
  induction a with
  | nil => rfl
  | cons x xs ih =>
    unfold commonPrefixLen
    rw [if_pos rfl, ih]
    rfl

theorem naStep_false_pop (F : List (List Char)) (hne : F ≠ [])
    (hdd : ∀ x ∈ F, x ≠ DD) :
    naStep false F DD = F.dropLast := by
  unfold naStep
  rw [if_neg (by decide), if_pos (by decide : DD = ['.', '.'])]
  rw [if_pos]
  refine ⟨hne, ?_⟩
  intro hlast
  obtain ⟨ys, hys⟩ := List.getLast?_eq_some_iff.mp hlast
  exact hdd _ (hys ▸ List.mem_append_right ys (List.mem_singleton_self _)) rfl

theorem foldl_naStep_pop (m : Nat) :
    ∀ (F : List (List Char)), (∀ x ∈ F, x ≠ DD) → m ≤ F.length →
      (List.replicate m DD).foldl (naStep false) F =
        F.take (F.length - m) := by
  induction m with
  | zero =>
    intro F _ _
    simp
  | succ n ih =>
    intro F hdd hle
    have hne : F ≠ [] := by
      intro e
      subst e
      simp at hle
    rw [List.replicate_succ, List.foldl_cons, naStep_false_pop F hne hdd,
      ih F.dropLast (fun x hx => hdd x (List.dropLast_subset F hx))
        (by rw [List.length_dropLast]; omega),
      List.length_dropLast, List.dropLast_eq_take, List.take_take]
    congr 1
    omega

theorem isAbsoluteL_destruct (x : List Char) (h : isAbsoluteL x = true) :
    ∃ t, x = '/' :: t := by
  cases x with
  | nil => simp [isAbsoluteL] at h
  | cons c cs => exact ⟨cs, by rw [(isAbsoluteL_cons_iff c cs).mp h]⟩

theorem normalizeL_abs_notr (src : List Char)
    (hsrc : isAbsoluteL src = true) (htr : src.getLast? ≠ some '/') :
    normalizeL src = '/' :: joinSegs (normalizeArrayL (splitL src) false) := by
  have h2 : (!isAbsoluteL src) = false := by rw [hsrc]; rfl
  simp only [normalizeL, hsrc, h2]
  split_ifs <;> first | rfl | tauto

theorem resolveGo_single_abs (cwd x : List Char)
    (hx : isAbsoluteL x = true) :
    resolveGo cwd [] [x] = (x ++ ['/'], true) := by
  unfold resolveGo
  rw [if_neg (isAbsoluteL_ne_nil x hx), if_pos hx]

theorem splitL_snoc_slash (x : List Char) :
    splitL (x ++ ['/']) = splitL x ++ [[]] := by
  rw [show x ++ ['/'] = x ++ '/' :: [] from rfl, splitL_append_slash]
  rfl

theorem na_snoc_slash (x : List Char) (allow : Bool) :
    normalizeArrayL (splitL (x ++ ['/'])) allow =
      normalizeArrayL (splitL x) allow := by
  rw [splitL_snoc_slash, normalizeArrayL_snoc_nil]

theorem trim_split_join (T : List (List Char))
    (hgood : ∀ x ∈ T, GoodSeg x) :
    trimL (splitL (joinSegs T)) = T := by
  cases T with
  | nil => decide
  | cons a l =>
    rw [splitL_joinSegs (a :: l) (by simp) (fun x hx => (hgood x hx).2.2),
      trimL_id (a :: l) (fun x hx => (hgood x hx).1)]

/-- The parts computed by `relative` for one side are exactly the
normalized segment list underlying the corresponding `resolve`. -/
theorem relative_parts (cwd x : List Char) (hcwd : isAbsoluteL cwd = true) :
    trimL (splitL ((resolveL cwd [x]).drop 1)) =
      normalizeArrayL (splitL (resolveGo cwd [] [x]).1) false := by
  have h1 : resolveL cwd [x] =
      '/' :: joinSegs
        (normalizeArrayL (splitL (resolveGo cwd [] [x]).1) false) := by
    have h2 := resolveL_eq cwd [x] hcwd
    rwa [List.reverse_singleton] at h2
  rw [h1, List.drop_one, List.tail_cons,
    trim_split_join _ (normalizeArrayL_good _ false
      (not_slash_mem_splitL _))]

theorem relative_out_self (P : List (List Char)) :
    joinSegs (List.replicate (P.length - commonPrefixLen P P) ['.', '.'] ++
      List.drop (commonPrefixLen P P) P) = [] := by
  rw [commonPrefixLen_self]
  simp [joinSegs]

/-- Unfolding of `relativeL` with its let-bindings expanded. -/
theorem relativeL_unfold (cwd src dst : List Char) :
    relativeL cwd src dst =
      joinSegs (List.replicate
        ((trimL (splitL ((resolveL cwd [src]).drop 1))).length -
          commonPrefixLen (trimL (splitL ((resolveL cwd [src]).drop 1)))
            (trimL (splitL ((resolveL cwd [dst]).drop 1)))) ['.', '.'] ++
        (trimL (splitL ((resolveL cwd [dst]).drop 1))).drop
          (commonPrefixLen (trimL (splitL ((resolveL cwd [src]).drop 1)))
            (trimL (splitL ((resolveL cwd [dst]).drop 1))))) := rfl

/-- If both arguments resolve to the same string, `relative` returns the
empty path. -/
theorem relativeL_self (cwd src dst : List Char)
    (h : resolveL cwd [src] = resolveL cwd [dst]) :
    relativeL cwd src dst = [] := by
  rw [relativeL_unfold, h]
  exact relative_out_self _

/-- Assembling `normalizeL` on an absolute concatenation whose split and
segment normalization are known. -/
theorem normalizeL_concat_clean (src : List Char) (out T : List (List Char))
    (habs2 : isAbsoluteL (src ++ '/' :: joinSegs out) = true)
    (htr2 : (src ++ '/' :: joinSegs out).getLast? ≠ some '/')
    (hsplit2 : splitL (src ++ '/' :: joinSegs out) = splitL src ++ out)
    (hna2 : normalizeArrayL (splitL src ++ out) false = T) :
    normalizeL (src ++ '/' :: joinSegs out) = '/' :: joinSegs T := by
  have hnot : (!isAbsoluteL (src ++ '/' :: joinSegs out)) = false := by
    rw [habs2]; rfl
  simp only [normalizeL, habs2, hnot, hsplit2, hna2]
  split_ifs <;> first | rfl | tauto

/-- Core of the relative round-trip: with an absolute working directory
and an absolute `src` with no trailing slash,
normalizing the concatenation `src + '/' + relative(src, dst)` yields
exactly the resolution of `dst`. -/
theorem roundtrip_core (cwd src dst : List Char)
    (hcwd : isAbsoluteL cwd = true) (hsrc : isAbsoluteL src = true)
    (htr : src.getLast? ≠ some '/') :
    normalizeL (joinConcat [src, relativeL cwd src dst]) =
      '/' :: joinSegs
        (normalizeArrayL (splitL (resolveGo cwd [] [dst]).1) false) := by
  have hsrcne : src ≠ [] := isAbsoluteL_ne_nil src hsrc
  set F := normalizeArrayL (splitL src) false with hF
  set T := normalizeArrayL (splitL (resolveGo cwd [] [dst]).1) false with hT
  have hFgood : ∀ x ∈ F, GoodSeg x :=
    normalizeArrayL_good _ false (not_slash_mem_splitL src)
  have hFdd : ∀ x ∈ F, x ≠ DD := normalizeArrayL_no_dd _
  have hTgood : ∀ x ∈ T, GoodSeg x :=
    normalizeArrayL_good _ false (not_slash_mem_splitL _)
  have hTdd : ∀ x ∈ T, x ≠ DD := normalizeArrayL_no_dd _
  have hFparts : trimL (splitL ((resolveL cwd [src]).drop 1)) = F := by
    rw [relative_parts cwd src hcwd, resolveGo_single_abs cwd src hsrc,
      na_snoc_slash]
  have hTparts : trimL (splitL ((resolveL cwd [dst]).drop 1)) = T :=
    relative_parts cwd dst hcwd
  set k := commonPrefixLen F T with hk
  have hkF : k ≤ F.length := commonPrefixLen_le_left F T
  have hkT : k ≤ T.length := commonPrefixLen_le_right F T
  set out := List.replicate (F.length - k) DD ++ T.drop k with hout
  have hrel : relativeL cwd src dst = joinSegs out := by
    rw [relativeL_unfold, hFparts, hTparts]
    rfl
  have houtgood : ∀ x ∈ out, GoodSeg x := by
    intro x hx
    rcases List.mem_append.mp hx with hx | hx
    · rw [List.eq_of_mem_replicate hx]
      exact ⟨by decide, by decide, by decide⟩
    · exact hTgood x (List.drop_subset k T hx)
  have hna2 : normalizeArrayL (splitL src ++ out) false = T := by
    unfold normalizeArrayL
    rw [List.foldl_append, List.foldl_append]
    have e1 : (splitL src).foldl (naStep false) [] = F := rfl
    rw [e1, foldl_naStep_pop (F.length - k) F hFdd (by omega),
      show F.length - (F.length - k) = k by omega,
      foldl_naStep_reals false (T.drop k)
        (fun x hx =>
          ⟨(hTgood x (List.drop_subset k T hx)).1,
           (hTgood x (List.drop_subset k T hx)).2.1,
           hTdd x (List.drop_subset k T hx)⟩),
      commonPrefixLen_take F T, List.take_append_drop]
  by_cases hout0 : out = []
  · have hlen : F.length = k := by
      have h1 := (List.append_eq_nil.mp hout0).1
      have h2 := (List.replicate_eq_nil_iff DD).mp h1
      omega
    have hFT : F = T := by
      have h3 := (List.append_eq_nil.mp hout0).2
      have h4 : T.length ≤ k := List.drop_eq_nil_iff.mp h3
      calc F = F.take k := by rw [← hlen, List.take_length]
        _ = T.take k := commonPrefixLen_take F T
        _ = T := by
            rw [show k = T.length by omega, List.take_length]
    have hjc : joinConcat [src, joinSegs out] = src := by
      rw [hout0]
      simp [joinConcat, hsrcne, joinSegs]
    rw [hrel, hjc, normalizeL_abs_notr src hsrc htr, ← hF, hFT]
  · have hrelne : joinSegs out ≠ [] := by
      cases hc : out with
      | nil => exact absurd hc hout0
      | cons a l =>
        exact joinSegs_ne_nil a l
          (houtgood a (hc ▸ List.mem_cons_self a l)).1
    have hjc : joinConcat [src, joinSegs out] =
        src ++ '/' :: joinSegs out := by
      simp [joinConcat, List.foldl_cons, List.foldl_nil, hsrcne, hrelne]
    rw [hrel, hjc]
    obtain ⟨t, ht⟩ := isAbsoluteL_destruct src hsrc
    have habs2 : isAbsoluteL (src ++ '/' :: joinSegs out) = true := by
      rw [ht]; rfl
    have htr2 : (src ++ '/' :: joinSegs out).getLast? ≠ some '/' := by
      rw [List.getLast?_append_of_ne_nil _ (by simp),
        show ('/' :: joinSegs out) = ['/'] ++ joinSegs out from rfl,
        List.getLast?_append_of_ne_nil _ hrelne]
      exact joinSegs_getLast_ne_slash' out houtgood hout0
    have hsplit2 : splitL (src ++ '/' :: joinSegs out) =
        splitL src ++ out := by
      rw [splitL_append_slash,
        splitL_joinSegs out hout0 (fun x hx => (houtgood x hx).2.2)]
    exact normalizeL_concat_clean src out T habs2 htr2 hsplit2 hna2

/-! ### Lemmas about the path splitter -/

theorem posixSplitPathL_unfold (s : List Char) :
    posixSplitPathL s =
      { root := if isAbsoluteL s then ['/'] else []
        dir := dirPart
          (stripTrailingSlashes (if isAbsoluteL s then s.drop 1 else s))
        base := lastComp
          (stripTrailingSlashes (if isAbsoluteL s then s.drop 1 else s))
        ext := (baseSplit (lastComp
          (stripTrailingSlashes
            (if isAbsoluteL s then s.drop 1 else s)))).2 } := rfl

theorem stripTrailingSlashes_id (t : List Char)
    (h : t.getLast? ≠ some '/') : stripTrailingSlashes t = t := by
  unfold stripTrailingSlashes
  cases ht : t.reverse with
  | nil =>
    have h2 : t = [] := by
      have h3 := congrArg List.reverse ht
      rwa [List.reverse_reverse] at h3
    rw [h2]
    rfl
  | cons c cs =>
    have hc : c ≠ '/' := by
      intro e
      apply h
      rw [List.getLast?_eq_head?_reverse, ht, e]
      rfl
    rw [List.dropWhile_cons, if_neg (by simp [hc]), ← ht,
      List.reverse_reverse]

theorem dirPart_append_lastComp (m : List Char) :
    dirPart m ++ lastComp m = m := by
  unfold dirPart lastComp
  rw [← List.reverse_append, List.takeWhile_append_dropWhile,
    List.reverse_reverse]

theorem lastComp_no_slash (m : List Char) : '/' ∉ lastComp m := by
  intro hm
  have h2 := List.mem_reverse.mpr hm
  rw [lastComp, List.reverse_reverse] at h2
  have h3 := List.mem_takeWhile_imp h2
  simp at h3

theorem head_dropWhile_not (p : Char → Bool) (l : List Char) :
    ∀ c, (l.dropWhile p).head? = some c → p c = false := by
  induction l with
  | nil =>
    intro c h
    simp at h
  | cons a as ih =>
    intro c h
    rw [List.dropWhile_cons] at h
    by_cases hp : p a = true
    · rw [if_pos hp] at h
      exact ih c h
    · rw [if_neg hp] at h
      have h2 : a = c := by simpa using h
      rw [← h2]
      simpa using hp

theorem dirPart_getLast (m : List Char) (h : dirPart m ≠ []) :
    (dirPart m).getLast? = some '/' := by
  rw [show dirPart m = (m.reverse.dropWhile (fun c => c ≠ '/')).reverse
      from rfl,
    List.getLast?_eq_head?_reverse, List.reverse_reverse]
  cases hh : (m.reverse.dropWhile (fun c => c ≠ '/')).head? with
  | none =>
    exfalso
    apply h
    have h2 : m.reverse.dropWhile (fun c => c ≠ '/') = [] :=
      List.head?_eq_none_iff.mp hh
    rw [show dirPart m = (m.reverse.dropWhile (fun c => c ≠ '/')).reverse
        from rfl, h2]
    rfl
  | some c =>
    have h2 := head_dropWhile_not (fun c => c ≠ '/') m.reverse c hh
    have h3 : c = '/' := by simpa using h2
    rw [h3]

/-- Reassembly: when the input has no trailing slash, the three captured
pieces concatenate back to it. -/
theorem splitPath_reassemble (p : List Char)
    (htr : p.getLast? ≠ some '/') :
    (if isAbsoluteL p then ['/'] else []) ++
      dirPart (stripTrailingSlashes
        (if isAbsoluteL p then p.drop 1 else p)) ++
      lastComp (stripTrailingSlashes
        (if isAbsoluteL p then p.drop 1 else p)) = p := by
  by_cases habs : isAbsoluteL p = true
  · obtain ⟨t, rfl⟩ := isAbsoluteL_destruct p habs
    show ['/'] ++ dirPart (stripTrailingSlashes t) ++
      lastComp (stripTrailingSlashes t) = '/' :: t
    have htl : t.getLast? ≠ some '/' := by
      cases t with
      | nil => exact absurd rfl htr
      | cons b bs =>
        intro e
        exact htr (by rw [List.getLast?_cons_cons, e])
    rw [stripTrailingSlashes_id t htl, List.append_assoc,
      dirPart_append_lastComp]
    rfl
  · have habs' : isAbsoluteL p = false := by simpa using habs
    rw [habs']
    simp only [Bool.false_eq_true, if_false, List.nil_append]
    rw [stripTrailingSlashes_id p htr, dirPart_append_lastComp]

/-- `parseL` on a relative path, with the conditionals resolved. -/
theorem parseL_rel (p : List Char) (habs' : isAbsoluteL p = false) :
    parseL p =
      { root := []
        dir := (dirPart (stripTrailingSlashes p)).dropLast
        base := lastComp (stripTrailingSlashes p)
        ext := (baseSplit (lastComp (stripTrailingSlashes p))).2
        name := (lastComp (stripTrailingSlashes p)).take
          ((lastComp (stripTrailingSlashes p)).length -
            (baseSplit (lastComp (stripTrailingSlashes p))).2.length) } := by
  simp [parseL, posixSplitPathL, habs']

/-- `format (parse p) = p` for inputs with no trailing slash, except for
absolute paths whose dir capture is empty (where a spurious `//` shows
up). -/
theorem formatL_parseL (p : List Char) (htr : p.getLast? ≠ some '/')
    (hdir : isAbsoluteL p = true →
      dirPart (stripTrailingSlashes (p.drop 1)) ≠ []) :
    formatL (parseL p) = p := by
  have hre := splitPath_reassemble p htr
  by_cases habs : isAbsoluteL p = true
  · obtain ⟨t, rfl⟩ := isAbsoluteL_destruct p habs
    have hd := hdir habs
    rw [List.drop_one, List.tail_cons] at hd
    have hlast := dirPart_getLast _ hd
    have hsplit := List.dropLast_append_getLast? '/' hlast
    show (if ('/' :: (dirPart (stripTrailingSlashes t)).dropLast) ≠ []
        then ('/' :: (dirPart (stripTrailingSlashes t)).dropLast) ++ ['/']
        else []) ++ lastComp (stripTrailingSlashes t) = '/' :: t
    rw [if_pos (by simp)]
    have h5 : ('/' :: (dirPart (stripTrailingSlashes t)).dropLast) ++ ['/']
          ++ lastComp (stripTrailingSlashes t)
        = '/' :: (dirPart (stripTrailingSlashes t) ++
            lastComp (stripTrailingSlashes t)) := by
      rw [show ('/' :: (dirPart (stripTrailingSlashes t)).dropLast) ++ ['/']
            ++ lastComp (stripTrailingSlashes t)
          = '/' :: ((dirPart (stripTrailingSlashes t)).dropLast ++ ['/']
            ++ lastComp (stripTrailingSlashes t)) by simp, hsplit]
    rw [h5, dirPart_append_lastComp]
    have htl : t.getLast? ≠ some '/' := by
      cases t with
      | nil => exact absurd rfl htr
      | cons b bs =>
        intro e
        exact htr (by rw [List.getLast?_cons_cons, e])
    rw [stripTrailingSlashes_id t htl]
  · have habs' : isAbsoluteL p = false := by simpa using habs
    rw [habs'] at hre
    simp only [Bool.false_eq_true, if_false, List.nil_append] at hre
    rw [parseL_rel p habs']
    unfold formatL
    by_cases hd : dirPart (stripTrailingSlashes p) = []
    · rw [hd] at hre ⊢
      simp only [List.dropLast_nil, ne_eq, not_true_eq_false, if_false,
        List.nil_append]
      rw [List.nil_append] at hre
      exact hre
    · have hlast := dirPart_getLast _ hd
      have hsplit := List.dropLast_append_getLast? '/' hlast
      have hdl : (dirPart (stripTrailingSlashes p)).dropLast ≠ [] := by
        intro e
        have h2 : dirPart (stripTrailingSlashes p) = ['/'] := by
          rw [← hsplit, e]
          rfl
        have h3 : stripTrailingSlashes p =
            '/' :: lastComp (stripTrailingSlashes p) := by
          conv_lhs => rw [← dirPart_append_lastComp (stripTrailingSlashes p),
            h2]
          rfl
        rw [stripTrailingSlashes_id p htr] at h3
        have h4 : isAbsoluteL p = true := by
          rw [h3]
          rfl
        rw [h4] at habs'
        exact absurd habs' (by simp)
      rw [if_pos (by simpa using hdl)]
      show (dirPart (stripTrailingSlashes p)).dropLast ++ ['/'] ++
        lastComp (stripTrailingSlashes p) = p
      rw [hsplit]
      exact hre

/-! ### Closed form of the extension computed by the splitter -/

theorem afterLastDot_no_dot (f : List Char) (h : '.' ∉ f) :
    afterLastDot f = f := by
  unfold afterLastDot
  rw [List.takeWhile_eq_self_iff.mpr, List.reverse_reverse]
  intro x hx
  have hne : x ≠ '.' := fun e => h (e ▸ List.mem_reverse.mp hx)
  simp [hne]

theorem afterLastDot_append (u rest : List Char) (hrest : '.' ∉ rest) :
    afterLastDot (u ++ '.' :: rest) = rest := by
  unfold afterLastDot
  have h1 : ∀ x ∈ rest.reverse, (fun c => decide (c ≠ '.')) x = true := by
    intro x hx
    have hne : x ≠ '.' := fun e => hrest (e ▸ List.mem_reverse.mp hx)
    simp [hne]
  rw [List.reverse_append, List.reverse_cons, List.append_assoc,
    show ['.'] ++ u.reverse = '.' :: u.reverse from rfl,
    List.takeWhile_append_of_pos h1, List.takeWhile_cons]
  simp

theorem afterLastDot_cons (c : Char) (rs : List Char) (h : '.' ∈ rs) :
    afterLastDot (c :: rs) = afterLastDot rs := by
  unfold afterLastDot
  rw [List.reverse_cons, List.takeWhile_append, if_neg]
  intro hlen
  have he : rs.reverse.takeWhile (fun c => decide (c ≠ '.')) = rs.reverse :=
    (List.takeWhile_sublist _).eq_of_length hlen
  have h2 := List.takeWhile_eq_self_iff.mp he
  have h3 := h2 '.' (List.mem_reverse.mpr h)
  simp at h3

theorem lazyCut_snd (r : List Char) (hs : '/' ∉ r) :
    ∀ pre, (lazyCut pre r).2 = lazyAns r := by
  induction r with
  | nil =>
    intro pre
    simp [lazyCut, lazyAns]
  | cons c rs ih =>
    intro pre
    unfold lazyCut
    by_cases hok : extOk rs
    · rw [if_pos hok]
      rcases hok with hnil | ⟨hhd, hdot, _⟩
      · subst hnil
        simp [lazyAns]
      · cases rs with
        | nil => simp at hhd
        | cons d rest =>
          have hd : d = '.' := by simpa using hhd
          subst hd
          have hdot' : '.' ∉ rest := by simpa using hdot
          show ('.' :: rest) = lazyAns (c :: '.' :: rest)
          rw [lazyAns, if_pos (by simp),
            show c :: '.' :: rest = [c] ++ '.' :: rest from rfl,
            afterLastDot_append [c] rest hdot']
    · rw [if_neg hok]
      have hs2 : '/' ∉ rs := fun hm => hs (List.mem_cons_of_mem c hm)
      rw [ih hs2 (pre ++ [c])]
      unfold lazyAns
      simp only [List.drop_succ_cons, List.drop_zero]
      by_cases hin : '.' ∈ rs
      · have hdrop : '.' ∈ rs.drop 1 := by
          by_contra hno
          cases rs with
          | nil => simp at hin
          | cons d rest =>
            simp only [List.drop_succ_cons, List.drop_zero] at hno
            rcases List.mem_cons.mp hin with hd | hd
            · apply hok
              refine Or.inr ⟨by rw [← hd]; rfl, ?_, ?_⟩
              · simpa using hno
              · simp only [List.drop_succ_cons, List.drop_zero]
                intro hm
                exact hs2 (List.mem_cons_of_mem d hm)
            · exact hno hd
        rw [if_pos hdrop, if_pos hin, afterLastDot_cons c rs hin]
      · have h1 : '.' ∉ rs.drop 1 := fun hm => hin (List.drop_subset 1 rs hm)
        rw [if_neg h1, if_neg hin]

theorem baseSplit_snd (f : List Char) (hf : '/' ∉ f) :
    (baseSplit f).2 = extnameClosed f := by
  unfold baseSplit
  by_cases h0 : f = []
  · subst h0
    simp [extnameClosed]
  rw [if_neg h0]
  by_cases h1 : f.take 2 = ['.', '.'] ∧ extOk (f.drop 2)
  · rw [if_pos h1]
    obtain ⟨h1a, h1b⟩ := h1
    have hf2 : f = '.' :: '.' :: f.drop 2 := by
      conv_lhs => rw [← List.take_append_drop 2 f, h1a]
      rfl
    rcases h1b with hnil | ⟨hhd, hdot, _⟩
    · rw [hnil] at hf2
      rw [hnil, hf2]
      decide
    · cases hd2 : f.drop 2 with
      | nil =>
        rw [hd2] at hhd
        simp at hhd
      | cons d rest =>
        rw [hd2] at hhd hdot hf2
        have hdd : d = '.' := by simpa using hhd
        subst hdd
        have hdot' : '.' ∉ rest := by simpa using hdot
        rw [hf2, extnameClosed]
        rw [if_neg (by simp), if_neg (by simp), if_neg (by simp),
          show ('.' :: '.' :: '.' :: rest) = ['.', '.'] ++ '.' :: rest
            from rfl,
          afterLastDot_append _ rest hdot']
  rw [if_neg h1]
  by_cases h2 : f.take 1 = ['.'] ∧ extOk (f.drop 1)
  · rw [if_pos h2]
    obtain ⟨h2a, h2b⟩ := h2
    have hf1 : f = '.' :: f.drop 1 := by
      conv_lhs => rw [← List.take_append_drop 1 f, h2a]
      rfl
    rcases h2b with hnil | ⟨hhd, hdot, _⟩
    · rw [hnil] at hf1
      rw [hnil, hf1]
      decide
    · cases hd1 : f.drop 1 with
      | nil =>
        rw [hd1] at hhd
        simp at hhd
      | cons d rest =>
        rw [hd1] at hhd hdot hf1
        have hdd : d = '.' := by simpa using hhd
        subst hdd
        have hdot' : '.' ∉ rest := by simpa using hdot
        have hrest : rest ≠ [] := by
          intro e
          apply h1
          subst e
          rw [hf1]
          exact ⟨rfl, Or.inl rfl⟩
        rw [hf1, extnameClosed]
        rw [if_neg (by simp), if_neg (by simp [hrest]), if_neg (by simp),
          show ('.' :: '.' :: rest) = ['.'] ++ '.' :: rest from rfl,
          afterLastDot_append _ rest hdot']
  · rw [if_neg h2, lazyCut_snd f hf []]
    cases f with
    | nil => exact absurd rfl h0
    | cons c rs =>
      by_cases hc : c = '.'
      · subst hc
        have hnok : ¬ extOk rs := fun hok => h2 ⟨rfl, hok⟩
        have hrs_ne : rs ≠ [] := fun e => hnok (e ▸ Or.inl rfl)
        cases rs with
        | nil => exact absurd rfl hrs_ne
        | cons d rest =>
          by_cases hdd : d = '.'
          · subst hdd
            have hnok2 : ¬ extOk rest := fun hok => h1 ⟨rfl, hok⟩
            have hrest_ne : rest ≠ [] := fun e => hnok2 (e ▸ Or.inl rfl)
            rw [lazyAns, if_pos (by simp), extnameClosed,
              if_neg (by simp), if_neg (by simp [hrest_ne]),
              if_neg (by simp)]
          · by_cases hin : '.' ∈ d :: rest
            · rw [lazyAns, if_pos (by simpa using hin),
                extnameClosed, if_neg (by simp),
                if_neg (by simp [hdd]), if_neg (by
                  intro hcon
                  exact absurd hin (by simpa using hcon.2.2))]
            · rw [lazyAns, if_neg (by simpa using hin),
                extnameClosed, if_neg (by simp),
                if_neg (by simp [hdd]), if_pos ⟨rfl, by simp [hdd],
                  by simpa using hin⟩]
      · by_cases hin : '.' ∈ rs
        · rw [lazyAns, if_pos (by simpa using hin),
            extnameClosed, if_neg (by simp [hin]),
            if_neg (by simp [hc]), if_neg (by
              intro hcon
              have h3 : c :: List.take 0 rs = ['.'] := hcon.1
              simp [hc] at h3)]
        · have hninf : '.' ∉ c :: rs := by
            intro hm
            rcases List.mem_cons.mp hm with hd | hd
            · exact hc hd.symm
            · exact hin hd
          rw [lazyAns, if_neg (by simpa using hin),
            extnameClosed, if_pos hninf]

theorem stripTrailingSlashes_cons_slash (t : List Char) :
    stripTrailingSlashes ('/' :: t) =
      if stripTrailingSlashes t = [] then []
      else '/' :: stripTrailingSlashes t := by
  unfold stripTrailingSlashes
  rw [List.reverse_cons, List.dropWhile_append]
  by_cases h : t.reverse.dropWhile (fun c => decide (c = '/')) = []
  · rw [if_pos (by simp [h]), if_pos (by rw [h]; rfl)]
    simp
  · rw [if_neg (by simp [h]), if_neg (by simp [h]), List.reverse_append]
    rfl

theorem lastComp_cons_slash (u : List Char) :
    lastComp ('/' :: u) = lastComp u := by
  unfold lastComp
  rw [List.reverse_cons, List.takeWhile_append]
  by_cases h : (u.reverse.takeWhile (fun c => decide (c ≠ '/'))).length =
      u.reverse.length
  · rw [if_pos h]
    have he : u.reverse.takeWhile (fun c => decide (c ≠ '/')) = u.reverse :=
      (List.takeWhile_sublist _).eq_of_length h
    rw [he]
    simp
  · rw [if_neg h]

theorem lastComp_strip_cons_slash (t : List Char) :
    lastComp (stripTrailingSlashes ('/' :: t)) =
      lastComp (stripTrailingSlashes t) := by
  rw [stripTrailingSlashes_cons_slash]
  by_cases h : stripTrailingSlashes t = []
  · rw [if_pos h, h]
  · rw [if_neg h, lastComp_cons_slash]

/-- Closed form of `extname`: the splitter's extension capture equals the
last-dot rule applied to the final component. -/
theorem extnameL_closed (s : List Char) :
    extnameL s = extnameClosed (lastComp (stripTrailingSlashes s)) := by
  unfold extnameL
  rw [posixSplitPathL_unfold]
  by_cases habs : isAbsoluteL s = true
  · obtain ⟨t, rfl⟩ := isAbsoluteL_destruct s habs
    show (baseSplit (lastComp (stripTrailingSlashes t))).2 =
      extnameClosed (lastComp (stripTrailingSlashes ('/' :: t)))
    rw [baseSplit_snd _ (lastComp_no_slash _), lastComp_strip_cons_slash]
  · have habs' : isAbsoluteL s = false := by simpa using habs
    rw [habs']
    simp only [Bool.false_eq_true, if_false]
    exact baseSplit_snd _ (lastComp_no_slash _)

theorem isError_map {α β : Type} (f : α → β) (x : Except TypeErr α) :
    isError (x.map f) = isError x := by
  cases x <;> rfl

theorem joinV_error (args : List JSVal) (v : JSVal) (hv : v ∈ args)
    (hs : isStrV v = false) : isError (joinV args) = true := by
  rw [joinV, isError_map]
  induction args with
  | nil => simp at hv
  | cons a rest ih =>
    rcases List.mem_cons.mp hv with rfl | hv2
    · cases v with
      | str s => simp [isStrV] at hs
      | num n => rfl
      | nullv => rfl
      | obj r d b e n => rfl
    · cases a with
      | str s =>
        rw [joinGo, isError_map]
        exact ih hv2
      | num n => rfl
      | nullv => rfl
      | obj r d b e n => rfl

theorem resolveGoV_error (cwd : String) (l : List JSVal) (v : JSVal)
    (hv : v ∈ l) (hs : isStrV v = false)
    (hna : ∀ w ∈ l, noAbsStr w = true) :
    ∀ acc, isError (resolveGoV cwd acc l) = true := by
  induction l with
  | nil => simp at hv
  | cons a rest ih =>
    intro acc
    rcases List.mem_cons.mp hv with rfl | hv2
    · cases v with
      | str s => simp [isStrV] at hs
      | num n => rfl
      | nullv => rfl
      | obj r d b e n => rfl
    · cases a with
      | str s =>
        rw [resolveGoV]
        have hrec := fun acc => ih hv2
          (fun w hw => hna w (List.mem_cons_of_mem _ hw)) acc
        by_cases he : s = ""
        · rw [if_pos he]
          exact hrec acc
        · rw [if_neg he]
          have habs : isAbsolute s = false := by
            have h2 := hna (.str s) (List.mem_cons_self _ rest)
            simpa [noAbsStr] using h2
          rw [habs]
          simp only [Bool.false_eq_true, if_false]
          exact hrec (s ++ "/" ++ acc)
      | num n => rfl
      | nullv => rfl
      | obj r d b e n => rfl

theorem resolveV_error (cwd : String) (args : List JSVal) (v : JSVal)
    (hv : v ∈ args) (hs : isStrV v = false)
    (hna : ∀ w ∈ args, noAbsStr w = true) :
    isError (resolveV cwd args) = true := by
  rw [resolveV, isError_map]
  exact resolveGoV_error cwd args.reverse v (List.mem_reverse.mpr hv) hs
    (fun w hw => hna w (List.mem_reverse.mp hw)) ""

theorem parseV_error (v : JSVal) (hs : isStrV v = false) :
    isError (parseV v) = true := by
  cases v with
  | str s => simp [isStrV] at hs
  | num n => rfl
  | nullv => rfl
  | obj r d b e n => rfl

theorem formatV_error_nonobj (v : JSVal) (ho : isObjV v = false) :
    isError (formatV v) = true := by
  cases v with
  | obj r d b e n => simp [isObjV] at ho
  | str s => rfl
  | num n => rfl
  | nullv => rfl

theorem formatV_error_root (r : JSVal) (d b e n : Option JSVal)
    (hs : isStrV r = false) (hn : r ≠ .nullv) :
    isError (formatV (.obj (some r) d b e n)) = true := by
  cases r with
  | str s => simp [isStrV] at hs
  | num m => rfl
  | nullv => exact absurd rfl hn
  | obj r2 d2 b2 e2 n2 => rfl

/-! ### The claims -/

/-- C1: `normalize p` equals the spec pipeline — split on `/`, run the
segment normalizer with `allowAboveRoot = !isAbsolute p`, rejoin with
`/`, substitute `"."` for an empty relative result, re-append a trailing
`/` to a non-empty result when the input ended with `/`, and restore the
leading `/` for absolute inputs; in particular
`normalize "a/../../b" = "../b"` and `normalize "/a/b/../../c" = "/c"`. -/
theorem claim1_normalize_pipeline :
    (∀ p : String, normalize p = normalizeSpec p) ∧
      normalize "a/../../b" = "../b" ∧
      normalize "/a/b/../../c" = "/c" :=
  ⟨fun _ => rfl, by decide, by decide⟩

/-- C2: the segment normalizer is the single left-to-right pass
described by the spec: `normalizeArray parts allowAboveRoot` is the left
fold of the spec's step function (drop empty and `"."`; on `".."` pop a
trailing non-`".."` entry, else push `".."` exactly when
`allowAboveRoot`, else drop; push everything else verbatim) over the
parts, starting from an empty accumulator. -/
theorem claim2_normalizeArray_fold :
    ∀ (parts : List (List Char)) (allowAboveRoot : Bool),
      normalizeArrayL parts allowAboveRoot =
        parts.foldl (segStepSpec allowAboveRoot) [] :=
  fun _ _ => rfl

/-- C3 counterexample: with working directory `"/"`, `from = "a"`
(relative) and `to = "b"`, the claimed round-trip fails:
`normalize (join from (relative from to))` is the relative path `"b"`
while `normalize (resolve to)` is the absolute path `"/b"`. -/
theorem claim3_counterexample :
    normalize (join ["a", relative "/" "a" "b"]) = "b" ∧
      normalize (resolve "/" ["b"]) = "/b" ∧
      normalize (join ["a", relative "/" "a" "b"]) ≠
        normalize (resolve "/" ["b"]) := by
  decide

/-- C3 (amended): with an absolute working directory, the round-trip
`normalize (join from (relative from to)) = normalize (resolve to)`
holds for every `to` whenever `from` is absolute and has no trailing
slash; and whenever the two arguments resolve to identical strings,
`relative` returns the empty string. -/
theorem claim3_relative_roundtrip :
    (∀ cwd src dst : String, isAbsolute cwd = true →
      isAbsolute src = true → src.data.getLast? ≠ some '/' →
      normalize (join [src, relative cwd src dst]) =
        normalize (resolve cwd [dst])) ∧
    (∀ cwd src dst : String, resolve cwd [src] = resolve cwd [dst] →
      relative cwd src dst = "") := by
  constructor
  · intro cwd src dst hcwd hsrc htr
    show (⟨normalizeL (joinL
        [src.data, relativeL cwd.data src.data dst.data])⟩ : String) =
      ⟨normalizeL (resolveL cwd.data [dst.data])⟩
    apply congrArg String.mk
    have h1 : joinL [src.data, relativeL cwd.data src.data dst.data] =
        normalizeL (joinConcat
          [src.data, relativeL cwd.data src.data dst.data]) := rfl
    rw [h1, normalizeL_idem,
      roundtrip_core cwd.data src.data dst.data hcwd hsrc htr]
    have h3 : resolveL cwd.data [dst.data] =
        '/' :: joinSegs (normalizeArrayL
          (splitL (resolveGo cwd.data [] [dst.data]).1) false) := by
      have h4 := resolveL_eq cwd.data [dst.data] hcwd
      rwa [List.reverse_singleton] at h4
    rw [h3, normalizeL_abs_clean _
      (normalizeArrayL_good _ false (not_slash_mem_splitL _))
      (fun hmem => normalizeArrayL_no_dd _ DD hmem rfl)]
  · intro cwd src dst h
    show (⟨relativeL cwd.data src.data dst.data⟩ : String) = ""
    have h2 : resolveL cwd.data [src.data] =
        resolveL cwd.data [dst.data] := congrArg String.data h
    rw [relativeL_self _ _ _ h2]

theorem claim3_witness :
    normalize (join ["/a/b", relative "/" "/a/b" "/c"]) =
        normalize (resolve "/" ["/c"]) ∧
      relative "/" "/x" "/x" = "" :=
  ⟨claim3_relative_roundtrip.1 "/" "/a/b" "/c" (by decide) (by decide)
      (by decide),
    claim3_relative_roundtrip.2 "/" "/x" "/x" rfl⟩

/-- C4 counterexample: `p = "/a"` is normalized and has no trailing
slash, yet `format (parse "/a") = "//a" ≠ "/a" = normalize "/a"` (the
captured dir is just the root `"/"`, and `format` adds a second
separator after it). -/
theorem claim4_counterexample :
    normalize "/a" = "/a" ∧
      ("/a" : String).data.getLast? ≠ some '/' ∧
      format (parse "/a") = "//a" ∧
      format (parse "/a") ≠ normalize "/a" := by
  decide

/-- C4 (amended): `format (parse p) = normalize p` for every normalized
`p` with no trailing slash whose parsed `dir` is not the bare root `"/"`
(equivalently: `p` is not `/` followed by a single component; for those
inputs `format` produces a spurious `//`). -/
theorem claim4_parse_format_roundtrip :
    ∀ p : String, normalize p = p → p.data.getLast? ≠ some '/' →
      (isAbsolute p = true → (parse p).dir ≠ "/") →
      format (parse p) = normalize p := by
  intro p hnorm htr hdir
  rw [hnorm]
  obtain ⟨d⟩ := p
  show (⟨formatL (parseL d)⟩ : String) = ⟨d⟩
  apply congrArg String.mk
  apply formatL_parseL d htr
  intro habs he
  apply hdir habs
  obtain ⟨t, rfl⟩ := isAbsoluteL_destruct d habs
  show (⟨['/'] ++
    (dirPart (stripTrailingSlashes (('/' :: t).drop 1))).dropLast⟩ :
      String) = "/"
  rw [he]
  rfl

theorem claim4_witness :
    normalize "/a/b/c.txt" = "/a/b/c.txt" ∧
      format (parse "/a/b/c.txt") = normalize "/a/b/c.txt" :=
  ⟨by decide, claim4_parse_format_roundtrip "/a/b/c.txt" (by decide)
    (by decide) (by decide)⟩

/-- C5: with a working-directory supplier returning a string that starts
with `/`, `resolve` always returns an absolute path. -/
theorem claim5_resolve_absolute :
    ∀ (cwd : String) (args : List String), isAbsolute cwd = true →
      isAbsolute (resolve cwd args) = true := by
  intro cwd args h
  show isAbsoluteL (resolveL cwd.data (args.map String.data)) = true
  rw [resolveL_eq _ _ h]
  rfl

theorem claim5_witness : isAbsolute (resolve "/" ["a", "b"]) = true :=
  claim5_resolve_absolute "/" ["a", "b"] (by decide)

/-- C6: `normalize` is idempotent on every path string. -/
theorem claim6_normalize_idempotent :
    ∀ p : String, normalize (normalize p) = normalize p :=
  fun p => congrArg String.mk (normalizeL_idem p.data)

/-- C7 counterexample: the final component `"..a"` consists of two
leading dots followed by no further dot, so the claim predicts an empty
extension, but the regex backtracks to the one-dot branch and captures
`".a"`. -/
theorem claim7_counterexample :
    extname "..a" = ".a" ∧
      (⟨extnameClaimed (lastComp (stripTrailingSlashes
        ("..a" : String).data))⟩ : String) = "" := by
  decide

/-- C7 (amended): `extname` returns the suffix of the final path
component starting at its last dot, except that it returns the empty
string when the component has no dot, is `"."` or `".."`, or has a
single leading dot and no further dot; a component beginning with two
dots followed by a dotless remainder (such as `"..a"`) does get the
extension starting at its second dot.  In particular
`extname "file" = ""`, `extname ".gitignore" = ""` and
`extname "a.b.c" = ".c"`. -/
theorem claim7_extname :
    (∀ p : String, extname p =
      ⟨extnameClosed (lastComp (stripTrailingSlashes p.data))⟩) ∧
      extname "file" = "" ∧ extname ".gitignore" = "" ∧
      extname "a.b.c" = ".c" :=
  ⟨fun p => congrArg String.mk (extnameL_closed p.data), by decide,
    by decide, by decide⟩

/-- C8 counterexample: `resolve` does not raise a TypeError for the
non-string first argument `1` because the scan stops at the absolute
second argument `"/a"` before ever inspecting it; the call returns
`"/a"` instead of throwing. -/
theorem claim8_counterexample :
    resolveV "/" [.num 1, .str "/a"] = .ok "/a" := by
  decide

/-- C8 (amended): `join` raises a TypeError when any argument is not a
string; `resolve` raises when a non-string argument is present and no
absolute string argument shields it (arguments left of an absolute one
are never inspected); `parse` raises exactly on non-string input;
`format` raises on non-object input and on a `root` field that is
present, non-null and not a string (a `null` root is coalesced to
`""`). -/
theorem claim8_type_errors :
    (∀ (args : List JSVal) (v : JSVal), v ∈ args → isStrV v = false →
      isError (joinV args) = true) ∧
    (∀ (cwd : String) (args : List JSVal) (v : JSVal), v ∈ args →
      isStrV v = false → (∀ w ∈ args, noAbsStr w = true) →
      isError (resolveV cwd args) = true) ∧
    (∀ v : JSVal, isStrV v = false → isError (parseV v) = true) ∧
    (∀ v : JSVal, isObjV v = false → isError (formatV v) = true) ∧
    (∀ (r : JSVal) (d b e n : Option JSVal), isStrV r = false →
      r ≠ .nullv → isError (formatV (.obj (some r) d b e n)) = true) :=
  ⟨fun args v hv hs => joinV_error args v hv hs,
    fun cwd args v hv hs hna => resolveV_error cwd args v hv hs hna,
    parseV_error, formatV_error_nonobj, formatV_error_root⟩

theorem claim8_witness :
    isError (joinV [.num 1, .str "a"]) = true ∧
      isError (resolveV "/" [.str "a", .num 2]) = true ∧
      isError (parseV (.num 42)) = true ∧
      isError (formatV (.str "x")) = true ∧
      isError (formatV (.obj (some (.num 0)) none none none none))
        = true :=
  ⟨claim8_type_errors.1 [.num 1, .str "a"] (.num 1)
      (List.mem_cons_self _ _) rfl,
    claim8_type_errors.2.1 "/" [.str "a", .num 2] (.num 2)
      (List.mem_cons_of_mem _ (List.mem_cons_self _ _)) rfl (by decide),
    claim8_type_errors.2.2.1 (.num 42) rfl,
    claim8_type_errors.2.2.2.1 (.str "x") rfl,
    claim8_type_errors.2.2.2.2 (.num 0) none none none none rfl
      (fun h => JSVal.noConfusion h)⟩

/-- C9: on records with string fields, `format` returns
`dir + "/" + base` when `dir` is non-empty and `base` alone otherwise;
the `root` field never influences the output, so
`format {root := "/", base := "x"}` returns `"x"`. -/
theorem claim9_format :
    (∀ r : PathObj, format r =
      if r.dir ≠ "" then r.dir ++ "/" ++ r.base else r.base) ∧
    (∀ (r : PathObj) (root2 : String),
      format { r with root := root2 } = format r) ∧
    format { root := "/", dir := "", base := "x", ext := "", name := "" }
      = "x" := by
  refine ⟨?_, fun r root2 => rfl, by decide⟩
  intro r
  by_cases hd : r.dir = ""
  · rw [if_neg (not_not_intro hd)]
    have hd2 : r.dir.data = [] := by rw [hd]
    show (⟨formatL ⟨r.root.data, r.dir.data, r.base.data, r.ext.data,
      r.name.data⟩⟩ : String) = r.base
    rw [formatL, if_neg (by simp [hd2])]
    rfl
  · rw [if_pos hd]
    have hd2 : r.dir.data ≠ [] := by
      intro e
      exact hd (show r.dir = "" from congrArg String.mk e)
    show (⟨formatL ⟨r.root.data, r.dir.data, r.base.data, r.ext.data,
      r.name.data⟩⟩ : String) = r.dir ++ "/" ++ r.base
    rw [formatL, if_pos hd2]
    rfl

/-- C10: when the final component of `p` equals the (non-empty) `ext`
argument exactly, `basename p ext` strips it entirely and returns the
empty string. -/
theorem claim10_basename_strip_all :
    ∀ (p ext : String), ext ≠ "" → (parse p).base = ext →
      basename p (some ext) = "" := by
  intro p ext hne hbase
  have he : (posixSplitPathL p.data).base = ext.data :=
    congrArg String.data hbase
  have hne2 : ext.data ≠ [] := by
    intro e
    exact hne (show ext = "" from congrArg String.mk e)
  show (⟨basenameL p.data (some ext.data)⟩ : String) = ""
  apply congrArg String.mk
  simp only [basenameL, he]
  rw [if_pos ⟨hne2, by simp⟩]
  simp

theorem claim10_witness :
    ("b" : String) ≠ "" ∧ basename "/a/b" (some "b") = "" :=
  ⟨by decide, claim10_basename_strip_all "/a/b" "b" (by decide)
    (by decide)⟩

end NodePath
